import Mathlib

/-!
Shallow embedding of the translation-orchestration backend
(`backend/services/chunk_manager.py`, `backend/services/gemini_service.py`,
`backend/routers/keys.py`, `backend/routers/translate.py`,
`backend/services/mineru_service.py`).

Strings are modelled as `List Char`; Python string operations used by the
code (`re.split(r'\n\n+', ...)`, `re.split(r'(?<=[.!?。！？])\s+', ...)`,
`str.strip()`, `str.split()`, `str.find`, `in`, `len`, `//`) are embedded
as executable Lean functions below, each documented with the construct it
models.
-/

/-- Characters matched by Python's `\s` regex class and stripped by
`str.strip()` / split by `str.split()` (ASCII whitespace, the C1 control
block separators, NEL, NBSP and the Unicode space separators). -/
def isPySpace (c : Char) : Bool :=
  decide ((9 ≤ c.toNat ∧ c.toNat ≤ 13) ∨ (28 ≤ c.toNat ∧ c.toNat ≤ 32) ∨
    c.toNat = 133 ∨ c.toNat = 160 ∨ c.toNat = 0x1680 ∨
    (0x2000 ≤ c.toNat ∧ c.toNat ≤ 0x200a) ∨ c.toNat = 0x2028 ∨
    c.toNat = 0x2029 ∨ c.toNat = 0x202f ∨ c.toNat = 0x205f ∨ c.toNat = 0x3000)

/-- Sentence-ending punctuation of the chunker's sentence split
`re.split(r'(?<=[.!?。！？])\s+', para)` in `chunk_manager.py`. -/
def isSentPunct (c : Char) : Bool :=
  decide (c = '.' ∨ c = '!' ∨ c = '?' ∨ c = '。' ∨ c = '！' ∨ c = '？')

/-- Helper of `pyStrip`: drop leading Python whitespace. -/
def trimLeftPy (l : List Char) : List Char := l.dropWhile isPySpace

/-- Model of Python `str.strip()`: remove leading and trailing whitespace. -/
def pyStrip (l : List Char) : List Char :=
  ((trimLeftPy l).reverse.dropWhile isPySpace).reverse

/-- Accumulator-based scanner behind `wordsOf`.  `acc` holds the current
word reversed. -/
def wordsOfAux : List Char → List Char → List (List Char)
  | [], acc => if acc.isEmpty then [] else [acc.reverse]
  | c :: rest, acc =>
    if isPySpace c then
      if acc.isEmpty then wordsOfAux rest []
      else acc.reverse :: wordsOfAux rest []
    else wordsOfAux rest (c :: acc)

/-- Model of Python `str.split()` with no argument: the maximal runs of
non-whitespace characters, in order (empty pieces dropped). -/
def wordsOf (l : List Char) : List (List Char) := wordsOfAux l []

/-- Scanner behind `splitParas`.  `pend` counts newline characters read but
not yet committed: a run of two or more pending newlines is a paragraph
separator (the regex `\n\n+` is greedy), a single pending newline belongs
to the current piece.  `acc` holds the current piece reversed. -/
def splitParasAux : List Char → Nat → List Char → List (List Char)
  | [], pend, acc =>
    if 2 ≤ pend then [acc.reverse, []]
    else if pend = 1 then [acc.reverse ++ ['\n']]
    else [acc.reverse]
  | c :: rest, pend, acc =>
    if c = '\n' then splitParasAux rest (pend + 1) acc
    else if 2 ≤ pend then acc.reverse :: splitParasAux rest 0 [c]
    else if pend = 1 then splitParasAux rest 0 (c :: '\n' :: acc)
    else splitParasAux rest 0 (c :: acc)

/-- Model of `re.split(r'\n\n+', text)` from `split_into_chunks`
(`chunk_manager.py`): split at each maximal run of two or more newlines. -/
def splitParas (text : List Char) : List (List Char) := splitParasAux text 0 []

/-- True when the most recently accumulated character (head of the reversed
accumulator) is sentence-ending punctuation; this is the regex lookbehind
`(?<=[.!?。！？])`. -/
def headIsSentPunct : List Char → Bool
  | [] => false
  | c :: _ => isSentPunct c

/-- Scanner behind `splitSentences`.  `inSep` is true while consuming the
whitespace run of a separator match (the greedy `\s+`); `acc` holds the
current piece reversed. -/
def splitSentencesAux : List Char → List Char → Bool → List (List Char)
  | [], acc, _ => [acc.reverse]
  | c :: rest, acc, inSep =>
    if inSep && isPySpace c then splitSentencesAux rest acc inSep
    else if !inSep && isPySpace c && headIsSentPunct acc then
      acc.reverse :: splitSentencesAux rest [] true
    else splitSentencesAux rest (c :: acc) false

/-- Model of `re.split(r'(?<=[.!?。！？])\s+', para)` from
`split_into_chunks` (`chunk_manager.py`): split at each maximal whitespace
run that immediately follows sentence-ending punctuation; the whitespace is
consumed, the punctuation stays with the left piece. -/
def splitSentences (para : List Char) : List (List Char) :=
  splitSentencesAux para [] false

/-- Model of `estimate_tokens` (`chunk_manager.py`):
`len(text) // 4`. -/
def estimate_tokens (text : List Char) : Nat := text.length / 4

/-- Model of the `Chunk` pydantic model (`models/requests.py`). -/
structure Chunk where
  id : String
  content : List Char
  index : Nat
  deriving Repr, DecidableEq

/-- Chunk id string `f"chunk_{chunk_index}"`. -/
def mkChunkId (i : Nat) : String := "chunk_" ++ toString i

/-- A chunk before its pieces are joined: `pieces` is the list
`current_chunk` at flush time and `sep` the joiner string used by the
flush site in `split_into_chunks` (`"\n\n"` or `" "`).  The emitted chunk
content is `sep.join(pieces)`. -/
structure PChunk where
  id : String
  pieces : List (List Char)
  sep : List Char
  index : Nat
  deriving Repr, DecidableEq

/-- The paragraph separator joiner `"\n\n"`. -/
def nnSep : List Char := ['\n', '\n']

/-- The sentence joiner `" "`. -/
def spSep : List Char := [' ']

/-- Loop state of `split_into_chunks`: emitted chunks, the accumulation
`current_chunk`, the running estimate `current_tokens` and `chunk_index`. -/
structure SplitSt where
  chunks : List PChunk
  cur : List (List Char)
  tokens : Nat
  idx : Nat
  deriving Repr

/-- The `if current_chunk: chunks.append(...)` flush sites of
`split_into_chunks`, with the joiner `sep` of the flush site. -/
def flushWith (sep : List Char) (st : SplitSt) : SplitSt :=
  if st.cur.isEmpty then st
  else
    { chunks := st.chunks ++ [⟨mkChunkId st.idx, st.cur, sep, st.idx⟩]
      cur := [], tokens := 0, idx := st.idx + 1 }

/-- Body of the inner `for sentence in sentences` loop of
`split_into_chunks` for one sentence. -/
def stepSentence (max_tokens : Nat) (st : SplitSt) (s : List Char) : SplitSt :=
  let st' := if max_tokens < st.tokens + estimate_tokens s then flushWith spSep st else st
  { st' with cur := st'.cur ++ [s], tokens := st'.tokens + estimate_tokens s }

/-- Body of the outer `for para in paragraphs` loop of
`split_into_chunks` for one paragraph. -/
def stepPara (max_tokens : Nat) (st : SplitSt) (para0 : List Char) : SplitSt :=
  let para := pyStrip para0
  if para.isEmpty then st
  else if max_tokens < estimate_tokens para then
    (splitSentences para).foldl (stepSentence max_tokens) (flushWith nnSep st)
  else if max_tokens < st.tokens + estimate_tokens para then
    let st' := flushWith nnSep st
    { st' with cur := [para], tokens := estimate_tokens para }
  else
    { st with cur := st.cur ++ [para], tokens := st.tokens + estimate_tokens para }

/-- The chunk sequence of `split_into_chunks` (`chunk_manager.py`) with
each chunk kept as its flush-time piece list plus joiner. -/
def split_into_chunksP (text : List Char) (max_tokens : Nat) : List PChunk :=
  (flushWith nnSep ((splitParas text).foldl (stepPara max_tokens) ⟨[], [], 0, 0⟩)).chunks

/-- Joined content of a pre-chunk: `sep.join(current_chunk)`. -/
def joinPChunk (pc : PChunk) : Chunk :=
  ⟨pc.id, List.intercalate pc.sep pc.pieces, pc.index⟩

/-- Model of `split_into_chunks(text, max_tokens=1500, overlap_tokens=100)`
(`chunk_manager.py`).  `overlap_tokens` is accepted but unused, as in the
source. -/
def split_into_chunks (text : List Char) (max_tokens : Nat := 1500)
    (overlap_tokens : Nat := 100) : List Chunk :=
  let _ := overlap_tokens
  (split_into_chunksP text max_tokens).map joinPChunk

/-- Model of the key-pool state of `routers/keys.py` together with the
mutable `settings.gemini_api_key` of `config.py` (`""` plays Python's
falsy empty string, meaning "absent"). -/
structure KeysState where
  gemini_key_pool : List String
  current_key_index : Nat
  settings_gemini : String
  deriving Repr, DecidableEq

/-- Model of `get_current_gemini_key` (`routers/keys.py`): the pool entry
at `current_key_index` when the pool is non-empty (Python would raise on
an out-of-range index; the reachable-state invariant proved below rules
that out, and `get?` returns `none` there), else
`settings.gemini_api_key or None`. -/
def get_current_gemini_key (s : KeysState) : Option String :=
  if s.gemini_key_pool.isEmpty then
    if s.settings_gemini = "" then none else some s.settings_gemini
  else s.gemini_key_pool.get? s.current_key_index

/-- Model of `rotate_gemini_key` (`routers/keys.py`); the `Bool` is the
return value, the `KeysState` the state after the call.  On success the
new key is written to settings by `update_api_keys` (the index
`(current_key_index + 1) % len` is in range, so `getD`'s default is never
used). -/
def rotate_gemini_key (s : KeysState) : Bool × KeysState :=
  if s.gemini_key_pool.length ≤ 1 then (false, s)
  else
    let newIdx := (s.current_key_index + 1) % s.gemini_key_pool.length
    (true, { gemini_key_pool := s.gemini_key_pool, current_key_index := newIdx,
             settings_gemini := s.gemini_key_pool.getD newIdx "" })

/-- Model of the Gemini part of `set_api_keys` (`routers/keys.py`).
`request.gemini_keys` is `Optional[list[str]]`; both `None` and `[]` are
falsy and skip the update, so both are modelled as `[]`.  Falsy (empty)
key strings are filtered out; when the filtered pool is non-empty its
first entry is written to settings by `update_api_keys`. -/
def set_api_keys (gemini_keys : List String) (s : KeysState) : KeysState :=
  if gemini_keys.isEmpty then s
  else
    let pool := gemini_keys.filter (fun k => k ≠ "")
    { gemini_key_pool := pool, current_key_index := 0,
      settings_gemini := match pool with | [] => s.settings_gemini | k :: _ => k }

/-- The operations that mutate the key-pool state. -/
inductive KeyOp where
  | configure (keys : List String)
  | rotate
  deriving Repr

/-- Apply one key-pool operation. -/
def applyKeyOp (s : KeysState) : KeyOp → KeysState
  | .configure ks => set_api_keys ks s
  | .rotate => (rotate_gemini_key s).2

/-- Run a sequence of key-pool operations from the initial state: empty
pool, index 0, `settings.gemini_api_key` as loaded from the environment
(`env`, with `""` meaning no statically configured credential). -/
def runKeyOps (env : String) (ops : List KeyOp) : KeysState :=
  ops.foldl applyKeyOp ⟨[], 0, env⟩

/-- Model of the `GlossaryEntry` pydantic model (`models/requests.py`). -/
structure GlossaryEntry where
  english : List Char
  chinese : List Char
  deriving Repr, DecidableEq

/-- Model of the `TermMatch` pydantic model (`models/responses.py`). -/
structure TermMatch where
  term : List Char
  translation : List Char
  start_index : Nat
  end_index : Nat
  deriving Repr, DecidableEq

/-- Model of the `TranslatedChunk` pydantic model (`models/responses.py`). -/
structure TranslatedChunk where
  id : String
  original : List Char
  translated : List Char
  terms_used : List TermMatch
  tokens_used : Option Nat
  deriving Repr, DecidableEq

/-- Does `pat` occur in `text` starting at character index `i`?  This is
Python's slice test `text[i:i+len(pat)] == pat`. -/
def occursAt (text pat : List Char) (i : Nat) : Bool :=
  decide ((text.drop i).take pat.length = pat)

/-- Model of Python `text.find(pat, start)` (as an `Option` instead of
`-1`): the least `i ≥ start` (with `i ≤ len(text)`) where `pat` occurs. -/
def findFrom (text pat : List Char) (start : Nat) : Option Nat :=
  (List.range' start (text.length + 1 - start)).find? (occursAt text pat)

/-- Model of Python's substring test `pat in text`. -/
def containsSub (text pat : List Char) : Bool := (findFrom text pat 0).isSome

/-- Lower-case a string character-wise, modelling Python `str.lower()` on
the ASCII texts the code inspects. -/
def pyLower (l : List Char) : List Char := l.map Char.toLower

/-- Model of `find_relevant_terms` (`gemini_service.py`): glossary entries
whose (lower-cased) English term is a substring of the lower-cased text. -/
def find_relevant_terms (text : List Char) (glossary : List GlossaryEntry) :
    List GlossaryEntry :=
  glossary.filter (fun entry => containsSub (pyLower text) (pyLower entry.english))

/-- Model of `generate_prompt` (`gemini_service.py`). -/
def generate_prompt (text : List Char) (relevant_terms : List GlossaryEntry) :
    List Char :=
  let glossary_section :=
    if relevant_terms.isEmpty then []
    else
      let terms_list := List.intercalate "\n".toList
        (relevant_terms.map (fun t => "- ".toList ++ t.english ++ " → ".toList ++ t.chinese))
      "\n## Mandatory Terminology\nYou MUST use these exact translations for the following terms:\n".toList
        ++ terms_list ++ "\n".toList
  "# Technical Document Translation Task\n\n## Instructions\nTranslate the following English technical document content into Simplified Chinese.\n\n## Rules\n1. Preserve all Markdown formatting (headers, lists, tables, code blocks)\n2. Keep technical terms, standards codes (e.g., EN 13001, ISO 9001), and formulas unchanged\n3. Maintain the exact document structure\n4. Do NOT add explanations or commentary\n5. Output ONLY the translated text\n".toList
    ++ glossary_section
    ++ "\n## Source Text\n".toList ++ text
    ++ "\n\n## Translation (Chinese):".toList

/-- The code fence marker checked by `clean_response`. -/
def fenceMarker : List Char := "```".toList

/-- Model of `clean_response` (`gemini_service.py`): if the response starts
with a code fence, drop the first line, drop the last line when it is a
bare fence, rejoin with newlines; finally strip. -/
def clean_response (text : List Char) : List Char :=
  let text' :=
    if fenceMarker.isPrefixOf text then
      let lines := text.splitOn '\n'
      let lines :=
        match lines with
        | l0 :: rest => if fenceMarker.isPrefixOf l0 then rest else lines
        | [] => lines
      let lines :=
        match lines.getLast? with
        | some last => if pyStrip last = fenceMarker then lines.dropLast else lines
        | none => lines
      List.intercalate ['\n'] lines
    else text
  pyStrip text'

/-- Occurrence scan of one glossary entry in `identify_terms_in_text`:
repeated `text.find(term, start)` with `start = idx + 1` after each hit
(so overlapping occurrences are all found).  The fuel `text.length + 1`
bounds the number of iterations; each found index is below
`text.length + 1` and `start` strictly increases, so the fuel never runs
out. -/
def scanOccurrencesAux (text pat : List Char) : Nat → Nat → List Nat
  | 0, _ => []
  | fuel + 1, start =>
    match findFrom text pat start with
    | none => []
    | some idx => idx :: scanOccurrencesAux text pat fuel (idx + 1)

/-- All occurrence start indices of `pat` in `text`, leftmost first,
advancing one character after each match. -/
def scanOccurrences (text pat : List Char) : List Nat :=
  scanOccurrencesAux text pat (text.length + 1) 0

/-- Model of `identify_terms_in_text` (`gemini_service.py`): for each
glossary entry, in glossary order, a `TermMatch` at every occurrence of
its Chinese term in the translated text. -/
def identify_terms_in_text (text : List Char) (glossary : List GlossaryEntry) :
    List TermMatch :=
  (glossary.map (fun entry =>
    (scanOccurrences text entry.chinese).map (fun idx =>
      ⟨entry.english, entry.chinese, idx, idx + entry.chinese.length⟩))).flatten

/-- Outcome of one `model.generate_content` call: the response text, or
the message of the raised exception. -/
inductive CallOutcome where
  | success (raw : List Char)
  | failure (msg : List Char)

/-- Rate-limit classification in `translate_chunk` (`gemini_service.py`):
`"429" in error_msg or "rate" in error_msg or "quota" in error_msg` on the
lower-cased message. -/
def rateLimited (msg : List Char) : Bool :=
  containsSub (pyLower msg) "429".toList || containsSub (pyLower msg) "rate".toList
    || containsSub (pyLower msg) "quota".toList

/-- The exception message raised after the retry loop:
`f"Translation failed after {max_retries} attempts: {last_error}"` with
`max_retries = 3`. -/
def mkFailureMsg (lastError : Option (List Char)) : List Char :=
  "Translation failed after 3 attempts: ".toList ++
    (match lastError with | some m => m | none => "None".toList)

/-- The retry loop `for attempt in range(max_retries)` of `translate_chunk`
(`gemini_service.py`).  `remaining` is the number of loop iterations left,
`made` the number of attempts already made (indexing the oracle), and the
outcome of attempt `n` is `oracle n`.  Returns the result, the key-pool
state after the call, and the total number of attempts made.  On a
rate-limited failure the key is rotated and the loop continues only when
rotation succeeded; any other failure (or exhausted rotation, or exhausted
attempts) raises the wrapping message. -/
def translateAttempts (chunk : Chunk) (relevant : List GlossaryEntry)
    (oracle : Nat → CallOutcome) :
    Nat → Nat → KeysState → Option (List Char) →
    Except (List Char) TranslatedChunk × KeysState × Nat
  | 0, made, s, lastError => (.error (mkFailureMsg lastError), s, made)
  | remaining + 1, made, s, _ =>
    match oracle made with
    | .success raw =>
      let translated_text := clean_response raw
      let terms_used := identify_terms_in_text translated_text relevant
      (.ok ⟨chunk.id, chunk.content, translated_text, terms_used, none⟩, s, made + 1)
    | .failure msg =>
      if rateLimited msg then
        let r := rotate_gemini_key s
        if r.1 then translateAttempts chunk relevant oracle remaining (made + 1) r.2 (some msg)
        else (.error (mkFailureMsg (some msg)), r.2, made + 1)
      else (.error (mkFailureMsg (some msg)), s, made + 1)

/-- Model of `translate_chunk` (`gemini_service.py`).  The external
`generate_content` collaborator is abstracted by `oracle`, giving the
outcome of each attempt; the returned `Nat` counts the attempts actually
made (0 when the call raises before contacting the collaborator). -/
def translate_chunk (chunk : Chunk) (glossary : List GlossaryEntry)
    (s : KeysState) (oracle : Nat → CallOutcome) :
    Except (List Char) TranslatedChunk × KeysState × Nat :=
  match get_current_gemini_key s with
  | none => (.error "No Gemini API key configured".toList, s, 0)
  | some api_key =>
    if api_key = "" then (.error "No Gemini API key configured".toList, s, 0)
    else
      let relevant_terms := find_relevant_terms chunk.content glossary
      let _prompt := generate_prompt chunk.content relevant_terms
      translateAttempts chunk relevant_terms oracle 3 0 s none

/-- Model of the `TranslationProgress` pydantic model
(`models/responses.py`), the payload of each SSE event. -/
structure TranslationProgress where
  event : String
  chunk_id : Option String
  current : Nat
  total : Nat
  translated_chunk : Option TranslatedChunk
  error_message : Option (List Char)
  deriving Repr, DecidableEq

/-- Loop body of `event_generator` in `translate_batch`
(`routers/translate.py`), starting at position `i`; the per-position
translation outcome is abstracted by `tr`.  After the last chunk the
single `done` event is emitted. -/
def translate_batchAux (total : Nat) (tr : Nat → Except (List Char) TranslatedChunk) :
    Nat → List Chunk → List TranslationProgress
  | _, [] => [⟨"done", none, total, total, none, none⟩]
  | i, c :: rest =>
    ⟨"progress", some c.id, i, total, none, none⟩ ::
      match tr i with
      | .ok r =>
        ⟨"chunk_complete", some c.id, i + 1, total, some r, none⟩ ::
          translate_batchAux total tr (i + 1) rest
      | .error m =>
        ⟨"error", some c.id, i, total, none, some m⟩ ::
          translate_batchAux total tr (i + 1) rest

/-- Model of the SSE stream of `translate_batch` (`routers/translate.py`):
the ordered list of emitted `TranslationProgress` payloads. -/
def translate_batch (chunks : List Chunk)
    (tr : Nat → Except (List Char) TranslatedChunk) : List TranslationProgress :=
  translate_batchAux chunks.length tr 0 chunks

/-- The error-marker content `f"[Translation Error: {e}]"` used by
`translate_batch_sync`. -/
def errorMarker (msg : List Char) : List Char :=
  "[Translation Error: ".toList ++ msg ++ "]".toList

/-- Loop body of `translate_batch_sync` (`routers/translate.py`) starting
at position `i`. -/
def translate_batch_syncAux (tr : Nat → Except (List Char) TranslatedChunk) :
    Nat → List Chunk → List TranslatedChunk
  | _, [] => []
  | i, c :: rest =>
    (match tr i with
      | .ok r => r
      | .error m => ⟨c.id, c.content, errorMarker m, [], none⟩) ::
      translate_batch_syncAux tr (i + 1) rest

/-- Model of `translate_batch_sync` (`routers/translate.py`): one result
per chunk, failed chunks replaced by an error-marker `TranslatedChunk`. -/
def translate_batch_sync (chunks : List Chunk)
    (tr : Nat → Except (List Char) TranslatedChunk) : List TranslatedChunk :=
  translate_batch_syncAux tr 0 chunks

/-- Model of the `DocumentStructure` pydantic model
(`models/responses.py`). -/
structure DocumentStructure where
  text : List Char
  pages : Nat
  word_count : Nat
  language : String
  deriving Repr, DecidableEq

/-- Model of `detect_language` (`mineru_service.py`): `"zh"` when the
fraction of CJK-range characters strictly exceeds 0.1 (the float test
`chinese_chars / total_chars > 0.1` is `10 * chinese_chars > total_chars`
over the exact rationals), else `"en"`. -/
def detect_language (text : List Char) : String :=
  let chinese_chars :=
    (text.filter (fun c => decide (0x4e00 ≤ c.toNat ∧ c.toNat ≤ 0x9fff))).length
  if 0 < text.length ∧ text.length < 10 * chinese_chars then "zh" else "en"

/-- The `DocumentStructure` built by both `extract_with_local_mineru` and
`extract_with_cloud_mineru` (`mineru_service.py`) from the extracted
markdown: `pages = max(1, len(text.split()) // 500)`,
`word_count = len(text.split())`. -/
def mineru_extract_result (markdown_content : List Char) : DocumentStructure :=
  { text := markdown_content
    pages := max 1 ((wordsOf markdown_content).length / 500)
    word_count := (wordsOf markdown_content).length
    language := detect_language markdown_content }

/-- Blank-line (paragraph-separator) normalization, written from the
claim's words for comparison: split at blank-line runs, strip each
paragraph, drop empty paragraphs, rejoin with a canonical `"\n\n"`. -/
def normBlankLines (text : List Char) : List Char :=
  List.intercalate nnSep (((splitParas text).map pyStrip).filter (fun p => !p.isEmpty))

/-- Whitespace normalization: collapse every maximal whitespace run to a
single space and trim the ends (Python `" ".join(text.split())`). -/
def normWS (text : List Char) : List Char := List.intercalate spSep (wordsOf text)

/-- Sum of the running size estimates of the pieces accumulated into a
chunk: the quantity `current_tokens` tracks in `split_into_chunks`. -/
def sumTokens (ps : List (List Char)) : Nat := (ps.map estimate_tokens).sum

/-- The atomic pieces `split_into_chunks` derives from one paragraph:
nothing for a blank paragraph, its sentences for an oversized paragraph,
the stripped paragraph itself otherwise. -/
def paraPieces (M : Nat) (para0 : List Char) : List (List Char) :=
  let para := pyStrip para0
  if para.isEmpty then []
  else if M < estimate_tokens para then splitSentences para
  else [para]

/-- All atomic pieces of a text, in the order the chunker consumes them. -/
def allPieces (text : List Char) (M : Nat) : List (List Char) :=
  ((splitParas text).map (paraPieces M)).flatten

/-- Events emitted for the chunk at one position of the batch stream: the
`progress` event followed by `chunk_complete` on success or `error` on
failure. -/
def batchEvents (total : Nat) (tr : Nat → Except (List Char) TranslatedChunk)
    (p : Nat × Chunk) : List TranslationProgress :=
  ⟨"progress", some p.2.id, p.1, total, none, none⟩ ::
    match tr p.1 with
    | .ok r => [⟨"chunk_complete", some p.2.id, p.1 + 1, total, some r, none⟩]
    | .error m => [⟨"error", some p.2.id, p.1, total, none, some m⟩]

/-- Result component of `translate_chunk`. -/
def translate_chunk_result (chunk : Chunk) (glossary : List GlossaryEntry)
    (s : KeysState) (oracle : Nat → CallOutcome) :
    Except (List Char) TranslatedChunk :=
  (translate_chunk chunk glossary s oracle).1

/-- Number of `generate_content` attempts `translate_chunk` makes. -/
def translate_chunk_attempts (chunk : Chunk) (glossary : List GlossaryEntry)
    (s : KeysState) (oracle : Nat → CallOutcome) : Nat :=
  (translate_chunk chunk glossary s oracle).2.2

/-- A list with no trailing Python whitespace. -/
def noTrailingWs (l : List Char) : Prop :=
  ∀ c, l.getLast? = some c → isPySpace c = false

/-- Concrete document text consisting of `n` copies of `"a "`. -/
def repA : Nat → List Char
  | 0 => []
  | n + 1 => 'a' :: ' ' :: repA n

/-- Concrete chunk used in the batch-stream scenario. -/
def exChunk (i : Nat) : Chunk := ⟨mkChunkId i, "text".toList, i⟩

/-- Concrete successful translation result used in the batch-stream
scenario. -/
def exOk (i : Nat) : TranslatedChunk :=
  ⟨mkChunkId i, "text".toList, "译文".toList, [], none⟩

/-- Concrete per-position outcome for the batch-stream scenario: the third
chunk always fails, the others succeed. -/
def exTr (i : Nat) : Except (List Char) TranslatedChunk :=
  if i = 2 then .error "429 quota exceeded".toList else .ok (exOk i)

/-- The chunk-size discipline the accumulation loop maintains: the piece
estimates sum to at most the cap, or the accumulation is one single
oversized piece (an unsplittable sentence). -/
def goodPieces (M : Nat) (ps : List (List Char)) : Prop :=
  sumTokens ps ≤ M ∨ ∃ x, ps = [x] ∧ M < estimate_tokens x

/-- Loop invariant for the size discipline of `split_into_chunks`:
`current_tokens` is the sum of the accumulated piece estimates, the
accumulation is good, and every emitted chunk is good. -/
def C1Inv (M : Nat) (st : SplitSt) : Prop :=
  st.tokens = sumTokens st.cur ∧ goodPieces M st.cur ∧
    ∀ pc ∈ st.chunks, goodPieces M pc.pieces

/-- Loop invariant for non-emptiness: all accumulated pieces and all
emitted chunks' pieces are non-empty. -/
def NEInv (st : SplitSt) : Prop :=
  (∀ p ∈ st.cur, p ≠ []) ∧
    ∀ pc ∈ st.chunks, pc.pieces ≠ [] ∧ ∀ p ∈ pc.pieces, p ≠ []

/-- Every chunk is flushed with one of the two joiners of the source. -/
def SepInv (st : SplitSt) : Prop :=
  ∀ pc ∈ st.chunks, pc.sep = nnSep ∨ pc.sep = spSep

/-- The pieces of all emitted chunks, in order. -/
def chunkPieces (st : SplitSt) : List (List Char) :=
  (st.chunks.map PChunk.pieces).flatten

/-- A string of Python whitespace only. -/
def allWs (l : List Char) : Prop := ∀ c ∈ l, isPySpace c = true

/-- Concrete two-key pool state for the retry scenario. -/
def exKeys : KeysState := ⟨["A", "B"], 0, "A"⟩

/-- Concrete attempt outcomes for the retry scenario: the first call hits
a rate limit, the second succeeds. -/
def exOracle : Nat → CallOutcome := fun n =>
  if n = 0 then .failure "429 rate".toList else .success "好".toList

example : splitParas "a\n\nb\n\n\nc".toList = ["a".toList, "b".toList, "c".toList] := by decide
example : splitParas "a\nb".toList = ["a\nb".toList] := by decide
example : splitSentences "abcde. fghij".toList = ["abcde.".toList, "fghij".toList] := by decide
example : splitSentences "a.b".toList = ["a.b".toList] := by decide
example : wordsOf "  ab c  ".toList = ["ab".toList, "c".toList] := by decide
example : pyStrip "  ab ".toList = "ab".toList := by decide
example :
    (split_into_chunks "abc\n\nabc".toList 1).map Chunk.content = ["abc\n\nabc".toList] := by
  decide
example :
    (split_into_chunks "abcde. fghij".toList 2).map Chunk.content
      = ["abcde.\n\nfghij".toList] := by
  decide

/-- Rotation never changes the pool itself, only the index. -/
theorem rotate_pool_eq (s : KeysState) :
    (rotate_gemini_key s).2.gemini_key_pool = s.gemini_key_pool := by
  unfold rotate_gemini_key
  split <;> rfl

/-- Rotation succeeds exactly when the pool has more than one key. -/
theorem rotate_fst_iff (s : KeysState) :
    (rotate_gemini_key s).1 = true ↔ 1 < s.gemini_key_pool.length := by
  unfold rotate_gemini_key
  split
  · simp; omega
  · simp; omega

/-- C5: on a pool of size at most one, `rotate_gemini_key` returns false
and changes nothing; on a larger pool it returns true, advances
`current_key_index` to `(current_key_index + 1) % size` (an index that is
in range), keeps the pool, and `get_current_gemini_key` afterwards returns
the key at the new index. -/
theorem c5_rotate_spec (s : KeysState) :
    (s.gemini_key_pool.length ≤ 1 → rotate_gemini_key s = (false, s)) ∧
    (1 < s.gemini_key_pool.length →
      (rotate_gemini_key s).1 = true ∧
      (rotate_gemini_key s).2.current_key_index
        = (s.current_key_index + 1) % s.gemini_key_pool.length ∧
      (rotate_gemini_key s).2.gemini_key_pool = s.gemini_key_pool ∧
      get_current_gemini_key (rotate_gemini_key s).2
        = s.gemini_key_pool.get? ((s.current_key_index + 1) % s.gemini_key_pool.length) ∧
      ((rotate_gemini_key s).2.gemini_key_pool.get?
          (rotate_gemini_key s).2.current_key_index).isSome = true) := by
  constructor
  · intro h
    simp [rotate_gemini_key, h]
  · intro h
    have h' : ¬ s.gemini_key_pool.length ≤ 1 := by omega
    have hne : s.gemini_key_pool ≠ [] := by
      intro hc
      rw [hc] at h
      simp at h
    have hemp : s.gemini_key_pool.isEmpty = false := by
      simp [List.isEmpty_iff, hne]
    have hlt : (s.current_key_index + 1) % s.gemini_key_pool.length
        < s.gemini_key_pool.length := Nat.mod_lt _ (by omega)
    refine ⟨?_, ?_, ?_, ?_, ?_⟩
    · simp [rotate_gemini_key, h']
    · simp [rotate_gemini_key, h']
    · simp [rotate_gemini_key, h']
    · simp [rotate_gemini_key, h', get_current_gemini_key, hemp]
    · simp only [rotate_gemini_key, h', if_false]
      rw [List.get?_eq_get hlt]
      rfl

/-- Witness for C5 at the claim's concrete instance: pool `[A, B, C]` with
`current_index = 2` rotates to index 0 and returns true. -/
theorem c5_rotate_spec_witness :
    (rotate_gemini_key ⟨["A", "B", "C"], 2, "C"⟩).1 = true ∧
    (rotate_gemini_key ⟨["A", "B", "C"], 2, "C"⟩).2.current_key_index = 0 := by
  have h := (c5_rotate_spec ⟨["A", "B", "C"], 2, "C"⟩).2 (by decide)
  exact ⟨h.1, by rw [h.2.1]; decide⟩

/-- One key-pool operation preserves validity of `current_key_index`. -/
theorem applyKeyOp_index_lt {s : KeysState}
    (h : s.gemini_key_pool ≠ [] → s.current_key_index < s.gemini_key_pool.length)
    (op : KeyOp) :
    (applyKeyOp s op).gemini_key_pool ≠ [] →
      (applyKeyOp s op).current_key_index < (applyKeyOp s op).gemini_key_pool.length := by
  cases op with
  | configure ks =>
    simp only [applyKeyOp]
    unfold set_api_keys
    split
    · exact h
    · intro hne
      simpa using List.length_pos.mpr hne
  | rotate =>
    simp only [applyKeyOp]
    unfold rotate_gemini_key
    split
    · exact h
    · intro _
      exact Nat.mod_lt _ (by omega)

/-- Index validity holds in every state reachable by configure/rotate. -/
theorem runKeyOps_index_lt (env : String) (ops : List KeyOp) :
    (runKeyOps env ops).gemini_key_pool ≠ [] →
      (runKeyOps env ops).current_key_index < (runKeyOps env ops).gemini_key_pool.length := by
  have gen : ∀ (l : List KeyOp) (s : KeysState),
      (s.gemini_key_pool ≠ [] → s.current_key_index < s.gemini_key_pool.length) →
      ((l.foldl applyKeyOp s).gemini_key_pool ≠ [] →
        (l.foldl applyKeyOp s).current_key_index < (l.foldl applyKeyOp s).gemini_key_pool.length) := by
    intro l
    induction l with
    | nil => intro s h; simpa using h
    | cons op t ih =>
      intro s h
      exact ih _ (applyKeyOp_index_lt h op)
  exact gen ops _ (by intro hc; exact absurd rfl hc)

/-- C6 (amended): in every state reachable from the initial state by
configure/rotate operations, a non-empty pool has `current_key_index` in
range and `get_current_gemini_key` returns the pool entry at that index;
with an empty pool it returns the credential currently stored in settings
(which configure/rotate may have overwritten — not necessarily the
statically configured one) when non-empty, else none. -/
theorem c6_keypool_invariant (env : String) (ops : List KeyOp) :
    ((runKeyOps env ops).gemini_key_pool ≠ [] →
      (runKeyOps env ops).current_key_index < (runKeyOps env ops).gemini_key_pool.length ∧
      get_current_gemini_key (runKeyOps env ops)
        = (runKeyOps env ops).gemini_key_pool.get? (runKeyOps env ops).current_key_index ∧
      ((runKeyOps env ops).gemini_key_pool.get?
          (runKeyOps env ops).current_key_index).isSome = true) ∧
    ((runKeyOps env ops).gemini_key_pool = [] →
      get_current_gemini_key (runKeyOps env ops)
        = (if (runKeyOps env ops).settings_gemini = "" then none
            else some (runKeyOps env ops).settings_gemini)) := by
  constructor
  · intro hne
    have hlt := runKeyOps_index_lt env ops hne
    have hemp : (runKeyOps env ops).gemini_key_pool.isEmpty = false := by
      simp [List.isEmpty_iff, hne]
    refine ⟨hlt, ?_, ?_⟩
    · simp [get_current_gemini_key, hemp]
    · rw [List.get?_eq_get hlt]
      rfl
  · intro hemp
    simp [get_current_gemini_key, hemp]

/-- Witness for the C6 invariant after one configure operation. -/
theorem c6_keypool_invariant_witness :
    (runKeyOps "e" [.configure ["a", "b"]]).current_key_index
        < (runKeyOps "e" [.configure ["a", "b"]]).gemini_key_pool.length ∧
    get_current_gemini_key (runKeyOps "e" [.configure ["a", "b"]]) = some "a" := by
  have h := (c6_keypool_invariant "e" [.configure ["a", "b"]]).1 (by decide)
  refine ⟨h.1, ?_⟩
  rw [h.2.1]
  decide

/-- Counterexample to C6 as stated: starting with no statically configured
credential, configuring `["x"]` and then `[""]` (a truthy request list
whose keys are all falsy) leaves the pool empty while settings still hold
`"x"`, so `current()` returns `"x"` — not the (absent) statically
configured fallback. -/
theorem c6_counterexample :
    (runKeyOps "" [.configure ["x"], .configure [""]]).gemini_key_pool = [] ∧
    get_current_gemini_key (runKeyOps "" [.configure ["x"], .configure [""]]) = some "x" ∧
    some "x" ≠ (none : Option String) := by decide

/-- Closed form of the batch event stream from position `i`: per remaining
chunk its `batchEvents`, then the single `done` event. -/
theorem translate_batchAux_events (total : Nat)
    (tr : Nat → Except (List Char) TranslatedChunk) :
    ∀ (cs : List Chunk) (i : Nat),
      translate_batchAux total tr i cs
        = ((cs.enumFrom i).map (batchEvents total tr)).flatten
          ++ [⟨"done", none, total, total, none, none⟩]
  | [], i => by simp [translate_batchAux, List.enumFrom]
  | c :: rest, i => by
    have ih := translate_batchAux_events total tr rest (i + 1)
    rcases h : tr i with m | r
    · simp [translate_batchAux, List.enumFrom, batchEvents, h, ih]
    · simp [translate_batchAux, List.enumFrom, batchEvents, h, ih]

/-- C3: the streaming batch translation emits, for each chunk in index
order, `progress(current=i, total=N)` followed by
`chunk_complete(current=i+1)` with the result on success or
`error(current=i)` with the message on failure — a failure never cuts the
stream short — and the stream ends with the single
`done(current=N, total=N)` event; in the 3-chunk scenario where exactly
the third chunk fails, the events are Progress(0,3), ChunkComplete(1,3),
Progress(1,3), ChunkComplete(2,3), Progress(2,3), Error(2,3), Done(3,3). -/
theorem c3_stream_events (chunks : List Chunk)
    (tr : Nat → Except (List Char) TranslatedChunk) :
    translate_batch chunks tr
      = ((chunks.enumFrom 0).map (batchEvents chunks.length tr)).flatten
        ++ [⟨"done", none, chunks.length, chunks.length, none, none⟩] ∧
    (translate_batch chunks tr).getLast?
      = some ⟨"done", none, chunks.length, chunks.length, none, none⟩ ∧
    translate_batch [exChunk 0, exChunk 1, exChunk 2] exTr
      = [⟨"progress", some (mkChunkId 0), 0, 3, none, none⟩,
         ⟨"chunk_complete", some (mkChunkId 0), 1, 3, some (exOk 0), none⟩,
         ⟨"progress", some (mkChunkId 1), 1, 3, none, none⟩,
         ⟨"chunk_complete", some (mkChunkId 1), 2, 3, some (exOk 1), none⟩,
         ⟨"progress", some (mkChunkId 2), 2, 3, none, none⟩,
         ⟨"error", some (mkChunkId 2), 2, 3, none, some "429 quota exceeded".toList⟩,
         ⟨"done", none, 3, 3, none, none⟩] := by
  refine ⟨translate_batchAux_events _ _ _ _, ?_, by decide⟩
  rw [translate_batch, translate_batchAux_events]
  exact List.getLast?_concat _

/-- The synchronous batch loop returns one result per remaining chunk. -/
theorem translate_batch_syncAux_length (tr : Nat → Except (List Char) TranslatedChunk) :
    ∀ (cs : List Chunk) (i : Nat),
      (translate_batch_syncAux tr i cs).length = cs.length
  | [], _ => rfl
  | c :: rest, i => by
    simp [translate_batch_syncAux, translate_batch_syncAux_length tr rest (i + 1)]

/-- Element-wise description of the synchronous batch loop. -/
theorem translate_batch_syncAux_get? (tr : Nat → Except (List Char) TranslatedChunk) :
    ∀ (cs : List Chunk) (i0 j : Nat) (c : Chunk), cs.get? j = some c →
      (translate_batch_syncAux tr i0 cs).get? j
        = some (match tr (i0 + j) with
            | .ok r => r
            | .error m => ⟨c.id, c.content, errorMarker m, [], none⟩)
  | [], _, j, c => by simp
  | c0 :: rest, i0, 0, c => by
    intro hc
    simp only [List.get?] at hc
    cases hc
    simp [translate_batch_syncAux]
  | c0 :: rest, i0, j + 1, c => by
    intro hc
    simp only [List.get?] at hc
    have ih := translate_batch_syncAux_get? tr rest (i0 + 1) j c hc
    simp only [translate_batch_syncAux, List.get?]
    rw [ih, Nat.add_assoc, Nat.add_comm 1 j]

/-- C7: the synchronous batch translation returns exactly one
`TranslatedChunk` per input chunk, in input order with matching ids (given
that the per-chunk translator preserves ids, as `translate_chunk` does);
a failed chunk yields a result whose content is the visible
`[Translation Error: ...]` marker with empty `terms_used` instead of being
omitted or raising. -/
theorem c7_sync_batch (chunks : List Chunk)
    (tr : Nat → Except (List Char) TranslatedChunk)
    (hid : ∀ i c t, chunks.get? i = some c → tr i = .ok t → t.id = c.id) :
    (translate_batch_sync chunks tr).length = chunks.length ∧
    ∀ i c, chunks.get? i = some c →
      ∃ r, (translate_batch_sync chunks tr).get? i = some r ∧ r.id = c.id ∧
        (∀ t, tr i = .ok t → r = t) ∧
        (∀ m, tr i = .error m →
          r.original = c.content ∧ r.translated = errorMarker m ∧
          r.terms_used = [] ∧ r.tokens_used = none) := by
  constructor
  · exact translate_batch_syncAux_length tr chunks 0
  · intro i c hc
    have h := translate_batch_syncAux_get? tr chunks 0 i c hc
    rw [Nat.zero_add] at h
    rcases ht : tr i with m | t
    · rw [ht] at h
      refine ⟨⟨c.id, c.content, errorMarker m, [], none⟩, h, rfl, ?_, ?_⟩
      · intro t h'
        exact Except.noConfusion h'
      · intro m' hm
        injection hm with hmm
        subst hmm
        exact ⟨rfl, rfl, rfl, rfl⟩
    · rw [ht] at h
      refine ⟨t, h, hid i c t hc ht, ?_, ?_⟩
      · intro t' h'
        injection h' with htt
      · intro m' hm
        exact Except.noConfusion hm

/-- Witness for C7 on a concrete one-chunk batch. -/
theorem c7_sync_batch_witness :
    (translate_batch_sync [exChunk 0] exTr).length = ([exChunk 0] : List Chunk).length := by
  refine (c7_sync_batch [exChunk 0] exTr ?_).1
  intro i c t hc ht
  cases i with
  | zero =>
    simp only [List.get?] at hc
    cases hc
    simp only [exTr, if_neg (by decide : ¬ (0 = 2))] at ht
    cases ht
    decide
  | succ n => simp at hc

/-- The words of `n` copies of `"a "` are `n` copies of `"a"`. -/
theorem wordsOf_repA : ∀ n : Nat, wordsOf (repA n) = List.replicate n ['a']
  | 0 => rfl
  | n + 1 => by
    have ih := wordsOf_repA n
    simp only [repA, wordsOf, wordsOfAux,
      show isPySpace 'a' = false from rfl, show isPySpace ' ' = true from rfl]
    simp only [wordsOf] at ih
    simp [ih, List.replicate_succ]

/-- Counterexample to C4 as stated: a 600-word document gets page count
`max(1, 600 // 500) = 1`, while rounding up (as the claim states) would
give 2. -/
theorem c4_counterexample :
    (mineru_extract_result (repA 600)).word_count = 600 ∧
    (mineru_extract_result (repA 600)).pages = 1 ∧
    (600 + 500 - 1) / 500 = 2 ∧ (1 : Nat) ≠ 2 := by
  have h : (wordsOf (repA 600)).length = 600 := by
    rw [wordsOf_repA]
    exact List.length_replicate 600 ['a']
  refine ⟨?_, ?_, by norm_num, by norm_num⟩
  · simp [mineru_extract_result, h]
  · simp [mineru_extract_result, h]

/-- C4 (amended): the document-extraction result reports
`word_count = len(text.split())` and a page-count estimate equal to
`word_count` divided by 500 rounded DOWN, floored at 1 (so always at
least 1). -/
theorem c4_pages_floor (markdown_content : List Char) :
    (mineru_extract_result markdown_content).word_count
        = (wordsOf markdown_content).length ∧
    (mineru_extract_result markdown_content).pages
        = max 1 ((mineru_extract_result markdown_content).word_count / 500) ∧
    1 ≤ (mineru_extract_result markdown_content).pages := by
  refine ⟨rfl, rfl, ?_⟩
  exact Nat.le_max_left 1 _

/-- Soundness of `findFrom`: a returned index is at least `start`, at most
the text length, and an occurrence. -/
theorem findFrom_sound {text pat : List Char} {start idx : Nat}
    (h : findFrom text pat start = some idx) :
    start ≤ idx ∧ idx ≤ text.length ∧ occursAt text pat idx = true := by
  have hmem := List.mem_of_find?_eq_some h
  have hp := List.find?_some h
  rw [List.mem_range'_1] at hmem
  exact ⟨hmem.1, by omega, hp⟩

/-- Completeness of `findFrom`: `none` means no occurrence at or after
`start`. -/
theorem findFrom_none {text pat : List Char} {start : Nat}
    (h : findFrom text pat start = none) :
    ∀ j, start ≤ j → j ≤ text.length → occursAt text pat j = false := by
  intro j hj1 hj2
  have := List.find?_eq_none.mp h j (List.mem_range'_1.mpr ⟨hj1, by omega⟩)
  simpa using this

/-- A `find?` over an ascending `range'` returns the least satisfying
index: everything before it fails the predicate. -/
theorem find?_range'_min (p : Nat → Bool) :
    ∀ (n s idx : Nat), (List.range' s n).find? p = some idx →
      ∀ j, s ≤ j → j < idx → p j = false
  | 0, s, idx => by simp
  | n + 1, s, idx => by
    intro h j hj1 hj2
    rw [List.range'_succ] at h
    simp only [List.find?] at h
    rcases hp : p s with _ | _
    · rw [hp] at h
      rcases Nat.eq_or_lt_of_le hj1 with rfl | hlt
      · exact hp
      · exact find?_range'_min p n (s + 1) idx h j hlt hj2
    · rw [hp] at h
      cases h
      omega

/-- `findFrom` returns the leftmost occurrence at or after `start`. -/
theorem findFrom_min {text pat : List Char} {start idx : Nat}
    (h : findFrom text pat start = some idx) :
    ∀ j, start ≤ j → j < idx → occursAt text pat j = false :=
  find?_range'_min _ _ _ _ h

/-- Every index reported by the occurrence scan is an occurrence at or
after the scan start. -/
theorem scanOccurrencesAux_sound (text pat : List Char) :
    ∀ (fuel start i : Nat), i ∈ scanOccurrencesAux text pat fuel start →
      start ≤ i ∧ i ≤ text.length ∧ occursAt text pat i = true
  | 0, start, i => by simp [scanOccurrencesAux]
  | fuel + 1, start, i => by
    intro hmem
    simp only [scanOccurrencesAux] at hmem
    rcases h : findFrom text pat start with _ | idx
    · rw [h] at hmem
      simp at hmem
    · rw [h] at hmem
      have hs := findFrom_sound h
      rcases List.mem_cons.mp hmem with rfl | htail
      · exact hs
      · have := scanOccurrencesAux_sound text pat fuel (idx + 1) i htail
        exact ⟨by omega, this.2.1, this.2.2⟩

/-- Every occurrence at or after the scan start is reported, given enough
fuel. -/
theorem scanOccurrencesAux_complete (text pat : List Char) :
    ∀ (fuel start j : Nat), text.length + 1 - start ≤ fuel →
      start ≤ j → j ≤ text.length → occursAt text pat j = true →
      j ∈ scanOccurrencesAux text pat fuel start
  | 0, start, j => by
    intro hfuel hj1 hj2 _
    omega
  | fuel + 1, start, j => by
    intro hfuel hj1 hj2 hocc
    simp only [scanOccurrencesAux]
    rcases h : findFrom text pat start with _ | idx
    · have := findFrom_none h j hj1 hj2
      rw [hocc] at this
      cases this
    · have hs := findFrom_sound h
      rcases Nat.lt_or_ge j (idx + 1) with hlt | hge
      · have : j = idx := by
          rcases Nat.lt_or_ge j idx with hj | hj
          · have := findFrom_min h j hj1 hj
            rw [hocc] at this
            cases this
          · omega
        subst this
        exact List.mem_cons_self _ _
      · exact List.mem_cons_of_mem _
          (scanOccurrencesAux_complete text pat fuel (idx + 1) j (by omega) hge hj2 hocc)

/-- The occurrence scan reports strictly increasing indices. -/
theorem scanOccurrencesAux_sorted (text pat : List Char) :
    ∀ (fuel start : Nat), List.Pairwise (· < ·) (scanOccurrencesAux text pat fuel start)
  | 0, start => by simp [scanOccurrencesAux]
  | fuel + 1, start => by
    simp only [scanOccurrencesAux]
    rcases h : findFrom text pat start with _ | idx
    · simp
    · refine List.Pairwise.cons ?_ (scanOccurrencesAux_sorted text pat fuel (idx + 1))
      intro y hy
      have := scanOccurrencesAux_sound text pat fuel (idx + 1) y hy
      omega

/-- C9: `identify_terms_in_text` reports, per glossary entry in list
order, a `TermMatch` for exactly the case-sensitive substring occurrences
of its target term, found leftmost-first advancing one character per match
(so overlapping occurrences all appear, at strictly increasing offsets);
each match has `end_index = start_index + len(target)` and the text slice
`[start_index, end_index)` equal to the target; on `"负载负载"` with
target `"负载"` it returns matches at offsets (0,2) and (2,4). -/
theorem c9_locate_terms (text : List Char) (glossary : List GlossaryEntry) :
    (∀ m ∈ identify_terms_in_text text glossary,
      ∃ e ∈ glossary, m.term = e.english ∧ m.translation = e.chinese ∧
        m.end_index = m.start_index + e.chinese.length ∧
        (text.drop m.start_index).take e.chinese.length = e.chinese) ∧
    (∀ e ∈ glossary, ∀ j, j + e.chinese.length ≤ text.length →
      (text.drop j).take e.chinese.length = e.chinese →
      (⟨e.english, e.chinese, j, j + e.chinese.length⟩ : TermMatch)
        ∈ identify_terms_in_text text glossary) ∧
    (∀ e ∈ glossary, List.Pairwise (· < ·) (scanOccurrences text e.chinese)) ∧
    identify_terms_in_text "负载负载".toList [⟨"load".toList, "负载".toList⟩]
      = [⟨"load".toList, "负载".toList, 0, 2⟩, ⟨"load".toList, "负载".toList, 2, 4⟩] := by
  refine ⟨?_, ?_, ?_, by decide⟩
  · intro m hm
    rw [identify_terms_in_text, List.mem_flatten] at hm
    rcases hm with ⟨l, hl, hml⟩
    rcases List.mem_map.mp hl with ⟨e, he, rfl⟩
    rcases List.mem_map.mp hml with ⟨idx, hidx, rfl⟩
    have hs := scanOccurrencesAux_sound text e.chinese (text.length + 1) 0 idx hidx
    refine ⟨e, he, rfl, rfl, rfl, ?_⟩
    exact of_decide_eq_true hs.2.2
  · intro e he j hj hsl
    have hocc : occursAt text e.chinese j = true := decide_eq_true hsl
    have hmem := scanOccurrencesAux_complete text e.chinese (text.length + 1) 0 j
      (by omega) (Nat.zero_le j) (by omega) hocc
    rw [identify_terms_in_text, List.mem_flatten]
    refine ⟨_, List.mem_map.mpr ⟨e, he, rfl⟩, ?_⟩
    exact List.mem_map.mpr ⟨j, hmem, rfl⟩
  · intro e _
    exact scanOccurrencesAux_sorted text e.chinese (text.length + 1) 0

/-- Witness for C9: the overlapping-scan completeness applied at the
concrete second occurrence of `"负载"` in `"负载负载"`. -/
theorem c9_locate_terms_witness :
    (⟨"load".toList, "负载".toList, 2, 2 + ("负载".toList).length⟩ : TermMatch)
      ∈ identify_terms_in_text "负载负载".toList [⟨"load".toList, "负载".toList⟩] := by
  have h := (c9_locate_terms "负载负载".toList [⟨"load".toList, "负载".toList⟩]).2.1
  exact h ⟨"load".toList, "负载".toList⟩ (by decide) 2 (by decide) (by decide)

/-- C2: `translate_chunk` raises immediately — making no attempt — when no
credential is available; otherwise it makes at most 3 attempts, after a
failed attempt it retries exactly when the failure message is
rate-limit-classified and `rotate_gemini_key` succeeds (within the
3-attempt budget; rotation success is invariant across the loop because
rotation never changes the pool), and whenever the last attempt fails the
call raises the `TranslationError` wrapping that last failure's message. -/
theorem c2_translate_retry (chunk : Chunk) (glossary : List GlossaryEntry)
    (s : KeysState) (oracle : Nat → CallOutcome) :
    (get_current_gemini_key s = none →
      translate_chunk_attempts chunk glossary s oracle = 0 ∧
      ∃ e, translate_chunk_result chunk glossary s oracle = .error e) ∧
    translate_chunk_attempts chunk glossary s oracle ≤ 3 ∧
    (∀ i, i + 1 < translate_chunk_attempts chunk glossary s oracle →
      ∃ m, oracle i = .failure m ∧ rateLimited m = true ∧
        (rotate_gemini_key s).1 = true) ∧
    (∀ i m, i < translate_chunk_attempts chunk glossary s oracle → i + 1 < 3 →
      oracle i = .failure m → rateLimited m = true → (rotate_gemini_key s).1 = true →
      i + 1 < translate_chunk_attempts chunk glossary s oracle) ∧
    (∀ m, 0 < translate_chunk_attempts chunk glossary s oracle →
      oracle (translate_chunk_attempts chunk glossary s oracle - 1) = .failure m →
      translate_chunk_result chunk glossary s oracle = .error (mkFailureMsg (some m))) ∧
    (∀ raw, 0 < translate_chunk_attempts chunk glossary s oracle →
      oracle (translate_chunk_attempts chunk glossary s oracle - 1) = .success raw →
      ∃ t, translate_chunk_result chunk glossary s oracle = .ok t) := by
  rcases hg : get_current_gemini_key s with _ | k
  · -- no key available at all
    have hA : translate_chunk_attempts chunk glossary s oracle = 0 := by
      simp only [translate_chunk_attempts, translate_chunk, hg]
    have hR : translate_chunk_result chunk glossary s oracle
        = .error "No Gemini API key configured".toList := by
      simp only [translate_chunk_result, translate_chunk, hg]
    refine ⟨fun _ => ⟨hA, _, hR⟩, by omega, ?_, ?_, ?_, ?_⟩
    · intro i hi
      rw [hA] at hi
      exact absurd hi (by omega)
    · intro i m hi _ _ _ _
      rw [hA] at hi ⊢
      exact absurd hi (by omega)
    · intro m hpos _
      rw [hA] at hpos
      exact absurd hpos (by omega)
    · intro raw hpos _
      rw [hA] at hpos
      exact absurd hpos (by omega)
  · by_cases hk : k = ""
    · -- the configured key is the empty (falsy) string
      subst hk
      have hA : translate_chunk_attempts chunk glossary s oracle = 0 := by
        simp only [translate_chunk_attempts, translate_chunk, hg]
        simp
      have hR : translate_chunk_result chunk glossary s oracle
          = .error "No Gemini API key configured".toList := by
        simp only [translate_chunk_result, translate_chunk, hg]
        simp
      refine ⟨fun _ => ⟨hA, _, hR⟩, by omega, ?_, ?_, ?_, ?_⟩
      · intro i hi
        rw [hA] at hi
        exact absurd hi (by omega)
      · intro i m hi _ _ _ _
        rw [hA] at hi ⊢
        exact absurd hi (by omega)
      · intro m hpos _
        rw [hA] at hpos
        exact absurd hpos (by omega)
      · intro raw hpos _
        rw [hA] at hpos
        exact absurd hpos (by omega)
    · -- a usable key; the retry loop runs
      have hT0 : translate_chunk chunk glossary s oracle
          = translateAttempts chunk (find_relevant_terms chunk.content glossary)
              oracle 3 0 s none := by
        simp [translate_chunk, hg, hk]
      rcases h0 : oracle 0 with raw0 | m0
      · -- first attempt succeeds
        have hA : translate_chunk_attempts chunk glossary s oracle = 1 := by
          simp only [translate_chunk_attempts]
          rw [hT0]
          simp [translateAttempts, h0]
        have hR : ∃ t, translate_chunk_result chunk glossary s oracle = .ok t := by
          simp only [translate_chunk_result]
          rw [hT0]
          simp [translateAttempts, h0]
        refine ⟨fun h => Option.noConfusion h, by omega, ?_, ?_, ?_, ?_⟩
        · intro i hi
          rw [hA] at hi
          exact absurd hi (by omega)
        · intro i m hi _ hor _ _
          rw [hA] at hi
          have : i = 0 := by omega
          subst this
          exact CallOutcome.noConfusion (h0.symm.trans hor)
        · intro m hpos hor
          rw [hA] at hor
          have hor' : oracle 0 = .failure m := by simpa using hor
          exact CallOutcome.noConfusion (h0.symm.trans hor')
        · intro raw hpos _
          exact hR
      · -- first attempt fails
        rcases hrl0 : rateLimited m0 with _ | _
        · -- not rate-limited: stop after one attempt
          have hA : translate_chunk_attempts chunk glossary s oracle = 1 := by
            simp only [translate_chunk_attempts]
            rw [hT0]
            simp [translateAttempts, h0, hrl0]
          have hR : translate_chunk_result chunk glossary s oracle
              = .error (mkFailureMsg (some m0)) := by
            simp only [translate_chunk_result]
            rw [hT0]
            simp [translateAttempts, h0, hrl0]
          refine ⟨fun h => Option.noConfusion h, by omega, ?_, ?_, ?_, ?_⟩
          · intro i hi
            rw [hA] at hi
            exact absurd hi (by omega)
          · intro i m hi _ hor hrlm _
            rw [hA] at hi
            have : i = 0 := by omega
            subst this
            injection h0.symm.trans hor with hm
            rw [← hm] at hrlm
            rw [hrl0] at hrlm
            exact Bool.noConfusion hrlm
          · intro m hpos hor
            rw [hA] at hor
            have hor' : oracle 0 = .failure m := by simpa using hor
            injection h0.symm.trans hor' with hm
            rw [← hm]
            exact hR
          · intro raw hpos hor
            rw [hA] at hor
            have hor' : oracle 0 = .success raw := by simpa using hor
            exact CallOutcome.noConfusion (h0.symm.trans hor')
        · -- rate-limited: try to rotate
          rcases hrot : (rotate_gemini_key s).1 with _ | _
          · -- rotation failed (pool exhausted): stop after one attempt
            have hA : translate_chunk_attempts chunk glossary s oracle = 1 := by
              simp only [translate_chunk_attempts]
              rw [hT0]
              simp [translateAttempts, h0, hrl0, hrot]
            have hR : translate_chunk_result chunk glossary s oracle
                = .error (mkFailureMsg (some m0)) := by
              simp only [translate_chunk_result]
              rw [hT0]
              simp [translateAttempts, h0, hrl0, hrot]
            refine ⟨fun h => Option.noConfusion h, by omega, ?_, ?_, ?_, ?_⟩
            · intro i hi
              rw [hA] at hi
              exact absurd hi (by omega)
            · intro i m hi _ _ _ hrotm
              exact Bool.noConfusion hrotm
            · intro m hpos hor
              rw [hA] at hor
              have hor' : oracle 0 = .failure m := by simpa using hor
              injection h0.symm.trans hor' with hm
              rw [← hm]
              exact hR
            · intro raw hpos hor
              rw [hA] at hor
              have hor' : oracle 0 = .success raw := by simpa using hor
              exact CallOutcome.noConfusion (h0.symm.trans hor')
          · -- rotation succeeded: second attempt with the rotated state
            have hpool : 1 < s.gemini_key_pool.length := (rotate_fst_iff s).mp hrot
            have hrot1 : (rotate_gemini_key (rotate_gemini_key s).2).1 = true := by
              rw [rotate_fst_iff, rotate_pool_eq]
              exact hpool
            rcases h1 : oracle 1 with raw1 | m1
            · -- second attempt succeeds
              have hA : translate_chunk_attempts chunk glossary s oracle = 2 := by
                simp only [translate_chunk_attempts]
                rw [hT0]
                simp [translateAttempts, h0, hrl0, hrot, h1]
              have hR : ∃ t, translate_chunk_result chunk glossary s oracle = .ok t := by
                simp only [translate_chunk_result]
                rw [hT0]
                simp [translateAttempts, h0, hrl0, hrot, h1]
              refine ⟨fun h => Option.noConfusion h, by omega, ?_, ?_, ?_, ?_⟩
              · intro i hi
                rw [hA] at hi
                have : i = 0 := by omega
                subst this
                exact ⟨m0, h0, hrl0, rfl⟩
              · intro i m hi _ hor _ _
                rw [hA] at hi ⊢
                have : i = 0 ∨ i = 1 := by omega
                rcases this with rfl | rfl
                · omega
                · exact absurd (h1.symm.trans hor) (fun h => CallOutcome.noConfusion h)
              · intro m hpos hor
                rw [hA] at hor
                have hor' : oracle 1 = .failure m := by simpa using hor
                exact CallOutcome.noConfusion (h1.symm.trans hor')
              · intro raw hpos _
                exact hR
            · -- second attempt fails
              rcases hrl1 : rateLimited m1 with _ | _
              · -- not rate-limited: stop after two attempts
                have hA : translate_chunk_attempts chunk glossary s oracle = 2 := by
                  simp only [translate_chunk_attempts]
                  rw [hT0]
                  simp [translateAttempts, h0, hrl0, hrot, h1, hrl1]
                have hR : translate_chunk_result chunk glossary s oracle
                    = .error (mkFailureMsg (some m1)) := by
                  simp only [translate_chunk_result]
                  rw [hT0]
                  simp [translateAttempts, h0, hrl0, hrot, h1, hrl1]
                refine ⟨fun h => Option.noConfusion h, by omega, ?_, ?_, ?_, ?_⟩
                · intro i hi
                  rw [hA] at hi
                  have : i = 0 := by omega
                  subst this
                  exact ⟨m0, h0, hrl0, rfl⟩
                · intro i m hi _ hor hrlm _
                  rw [hA] at hi ⊢
                  have : i = 0 ∨ i = 1 := by omega
                  rcases this with rfl | rfl
                  · omega
                  · injection h1.symm.trans hor with hm
                    rw [← hm] at hrlm
                    rw [hrl1] at hrlm
                    exact Bool.noConfusion hrlm
                · intro m hpos hor
                  rw [hA] at hor
                  have hor' : oracle 1 = .failure m := by simpa using hor
                  injection h1.symm.trans hor' with hm
                  rw [← hm]
                  exact hR
                · intro raw hpos hor
                  rw [hA] at hor
                  have hor' : oracle 1 = .success raw := by simpa using hor
                  exact CallOutcome.noConfusion (h1.symm.trans hor')
              · -- rate-limited again; rotation succeeds again: third attempt
                rcases h2 : oracle 2 with raw2 | m2
                · -- third attempt succeeds
                  have hA : translate_chunk_attempts chunk glossary s oracle = 3 := by
                    simp only [translate_chunk_attempts]
                    rw [hT0]
                    simp [translateAttempts, h0, hrl0, hrot, h1, hrl1, hrot1, h2]
                  have hR : ∃ t, translate_chunk_result chunk glossary s oracle = .ok t := by
                    simp only [translate_chunk_result]
                    rw [hT0]
                    simp [translateAttempts, h0, hrl0, hrot, h1, hrl1, hrot1, h2]
                  refine ⟨fun h => Option.noConfusion h, by omega, ?_, ?_, ?_, ?_⟩
                  · intro i hi
                    rw [hA] at hi
                    have : i = 0 ∨ i = 1 := by omega
                    rcases this with rfl | rfl
                    · exact ⟨m0, h0, hrl0, rfl⟩
                    · exact ⟨m1, h1, hrl1, rfl⟩
                  · intro i m hi h3 _ _ _
                    rw [hA] at hi ⊢
                    omega
                  · intro m hpos hor
                    rw [hA] at hor
                    have hor' : oracle 2 = .failure m := by simpa using hor
                    exact CallOutcome.noConfusion (h2.symm.trans hor')
                  · intro raw hpos _
                    exact hR
                · -- third attempt fails (rate-limited or not): attempts exhausted
                  have hA : translate_chunk_attempts chunk glossary s oracle = 3 := by
                    simp only [translate_chunk_attempts]
                    rw [hT0]
                    rcases hrl2 : rateLimited m2 with _ | _
                    · simp [translateAttempts, h0, hrl0, hrot, h1, hrl1, hrot1, h2, hrl2]
                    · simp [translateAttempts, h0, hrl0, hrot, h1, hrl1, hrot1, h2, hrl2]
                  have hR : translate_chunk_result chunk glossary s oracle
                      = .error (mkFailureMsg (some m2)) := by
                    simp only [translate_chunk_result]
                    rw [hT0]
                    rcases hrl2 : rateLimited m2 with _ | _
                    · simp [translateAttempts, h0, hrl0, hrot, h1, hrl1, hrot1, h2, hrl2]
                    · simp [translateAttempts, h0, hrl0, hrot, h1, hrl1, hrot1, h2, hrl2]
                  refine ⟨fun h => Option.noConfusion h, by omega, ?_, ?_, ?_, ?_⟩
                  · intro i hi
                    rw [hA] at hi
                    have : i = 0 ∨ i = 1 := by omega
                    rcases this with rfl | rfl
                    · exact ⟨m0, h0, hrl0, rfl⟩
                    · exact ⟨m1, h1, hrl1, rfl⟩
                  · intro i m hi h3 _ _ _
                    rw [hA] at hi ⊢
                    omega
                  · intro m hpos hor
                    rw [hA] at hor
                    have hor' : oracle 2 = .failure m := by simpa using hor
                    injection h2.symm.trans hor' with hm
                    rw [← hm]
                    exact hR
                  · intro raw hpos hor
                    rw [hA] at hor
                    have hor' : oracle 2 = .success raw := by simpa using hor
                    exact CallOutcome.noConfusion (h2.symm.trans hor')

/-- Witness for C2 on a concrete run: with a two-key pool, a rate-limited
first attempt and a successful second one, the retry condition of the
first attempt is established by the theorem. -/
theorem c2_translate_retry_witness :
    ∃ m, exOracle 0 = .failure m ∧ rateLimited m = true ∧
      (rotate_gemini_key exKeys).1 = true := by
  have h := (c2_translate_retry (exChunk 0) [] exKeys exOracle).2.2.1
  exact h 0 (by decide)

/-- After a flush (given the token accounting), the accumulation is empty
and the running estimate is zero. -/
theorem flushWith_cur {st : SplitSt} (sep : List Char)
    (h : st.tokens = sumTokens st.cur) :
    (flushWith sep st).cur = [] ∧ (flushWith sep st).tokens = 0 := by
  unfold flushWith
  split
  · next hemp =>
    have hc : st.cur = [] := List.isEmpty_iff.mp hemp
    refine ⟨hc, ?_⟩
    rw [h, hc]
    rfl
  · exact ⟨rfl, rfl⟩

/-- A chunk present after a flush was already emitted, or is the flushed
accumulation with the flush joiner. -/
theorem flushWith_chunks {st : SplitSt} (sep : List Char) :
    ∀ pc ∈ (flushWith sep st).chunks,
      pc ∈ st.chunks ∨ (pc.pieces = st.cur ∧ pc.sep = sep) := by
  unfold flushWith
  split
  · exact fun pc hpc => Or.inl hpc
  · intro pc hpc
    rcases List.mem_append.mp hpc with h | h
    · exact Or.inl h
    · rcases List.mem_singleton.mp h with rfl
      exact Or.inr ⟨rfl, rfl⟩

/-- Token sum of an extended accumulation. -/
theorem sumTokens_append (ps : List (List Char)) (s : List Char) :
    sumTokens (ps ++ [s]) = sumTokens ps + estimate_tokens s := by
  simp [sumTokens]

/-- Flushing preserves the size invariant. -/
theorem flushWith_C1Inv {M : Nat} {st : SplitSt} (sep : List Char)
    (h : C1Inv M st) : C1Inv M (flushWith sep st) := by
  obtain ⟨h1, h2, h3⟩ := h
  obtain ⟨hc, ht⟩ := flushWith_cur sep h1
  refine ⟨by rw [hc, ht]; rfl, ?_, ?_⟩
  · rw [hc]
    left
    exact Nat.zero_le M
  · intro pc hpc
    rcases flushWith_chunks sep pc hpc with hin | ⟨hp, _⟩
    · exact h3 pc hin
    · rw [hp]
      exact h2

/-- One sentence step preserves the size invariant. -/
theorem stepSentence_C1Inv {M : Nat} {st : SplitSt} (s : List Char)
    (h : C1Inv M st) : C1Inv M (stepSentence M st s) := by
  obtain ⟨h1, h2, h3⟩ := h
  unfold stepSentence
  by_cases hc : M < st.tokens + estimate_tokens s
  · simp only [if_pos hc]
    obtain ⟨hfc, hft⟩ := flushWith_cur spSep h1
    have hfl := flushWith_C1Inv (M := M) spSep ⟨h1, h2, h3⟩
    refine ⟨?_, ?_, hfl.2.2⟩
    · simp only [hfc, hft]
      simp [sumTokens]
    · rcases Nat.lt_or_ge M (estimate_tokens s) with hlt | hle
      · right
        exact ⟨s, by simp [hfc], hlt⟩
      · left
        simp only [hfc]
        simpa [sumTokens] using hle
  · simp only [if_neg hc]
    refine ⟨?_, ?_, h3⟩
    · simp only [sumTokens_append, h1]
    · left
      simp only [sumTokens_append, ← h1]
      omega

/-- The sentence loop preserves the size invariant. -/
theorem foldl_stepSentence_C1Inv {M : Nat} :
    ∀ (ss : List (List Char)) (st : SplitSt), C1Inv M st →
      C1Inv M (ss.foldl (stepSentence M) st)
  | [], _, h => h
  | s :: ss, st, h =>
    foldl_stepSentence_C1Inv ss (stepSentence M st s) (stepSentence_C1Inv s h)

/-- One paragraph step preserves the size invariant. -/
theorem stepPara_C1Inv {M : Nat} {st : SplitSt} (p : List Char)
    (h : C1Inv M st) : C1Inv M (stepPara M st p) := by
  unfold stepPara
  by_cases he : (pyStrip p).isEmpty
  · simpa [he] using h
  · simp only [if_neg he]
    by_cases hbig : M < estimate_tokens (pyStrip p)
    · simp only [if_pos hbig]
      exact foldl_stepSentence_C1Inv _ _ (flushWith_C1Inv nnSep h)
    · simp only [if_neg hbig]
      by_cases hover : M < st.tokens + estimate_tokens (pyStrip p)
      · simp only [if_pos hover]
        obtain ⟨h1, h2, h3⟩ := h
        have hfl := flushWith_C1Inv (M := M) nnSep ⟨h1, h2, h3⟩
        refine ⟨by simp [sumTokens], ?_, hfl.2.2⟩
        left
        simpa [sumTokens] using Nat.le_of_not_lt hbig
      · simp only [if_neg hover]
        obtain ⟨h1, h2, h3⟩ := h
        refine ⟨by simp only [sumTokens_append, h1], ?_, h3⟩
        left
        simp only [sumTokens_append, ← h1]
        omega

/-- The paragraph loop preserves the size invariant. -/
theorem foldl_stepPara_C1Inv {M : Nat} :
    ∀ (ps : List (List Char)) (st : SplitSt), C1Inv M st →
      C1Inv M (ps.foldl (stepPara M) st)
  | [], _, h => h
  | p :: ps, st, h =>
    foldl_stepPara_C1Inv ps (stepPara M st p) (stepPara_C1Inv p h)

/-- Counterexample to C1 as stated: splitting `"abc\n\nabc"` with cap
`M = 1` produces the single chunk `"abc\n\nabc"` whose own size estimate
is `8 // 4 = 2 > 1`, and that chunk is two accumulated paragraphs — not a
single unsplittable sentence (each piece alone has estimate `0 ≤ 1`). -/
theorem c1_counterexample :
    (split_into_chunks "abc\n\nabc".toList 1 100).map Chunk.content
      = ["abc\n\nabc".toList] ∧
    estimate_tokens "abc\n\nabc".toList = 2 ∧ ¬ (2 ≤ 1) ∧
    (split_into_chunksP "abc\n\nabc".toList 1).map PChunk.pieces
      = [["abc".toList, "abc".toList]] ∧
    estimate_tokens "abc".toList = 0 := by
  decide

/-- C1 (amended): every chunk produced by `split_into_chunks(text, M, ov)`
either has the SUM of the size estimates of its accumulated pieces (the
running estimate the code tracks) at most `M`, or consists of a single
piece — an unsplittable sentence — whose own estimate exceeds `M`.  (The
joined content's own estimate can exceed `M` by the joiner characters and
rounding, as the counterexample shows.) -/
theorem c1_chunk_size (text : List Char) (M ov : Nat) :
    (∀ pc ∈ split_into_chunksP text M,
      sumTokens pc.pieces ≤ M ∨ ∃ x, pc.pieces = [x] ∧ M < estimate_tokens x) ∧
    split_into_chunks text M ov = (split_into_chunksP text M).map joinPChunk := by
  refine ⟨?_, rfl⟩
  intro pc hpc
  have hinit : C1Inv M ⟨[], [], 0, 0⟩ :=
    ⟨rfl, Or.inl (Nat.zero_le M), by intro pc h; cases h⟩
  have hfold := foldl_stepPara_C1Inv (splitParas text) _ hinit
  have hfin := flushWith_C1Inv nnSep hfold
  exact hfin.2.2 pc hpc

/-- Witness for C1 on a concrete split. -/
theorem c1_chunk_size_witness :
    sumTokens [['a', 'b']] ≤ 1 ∨ ∃ x, [['a', 'b']] = [x] ∧ 1 < estimate_tokens x := by
  have h := (c1_chunk_size "ab".toList 1 100).1
  exact h ⟨"chunk_0", [['a', 'b']], nnSep, 0⟩ (by decide)

/-- The head of a `dropWhile p` result fails `p`. -/
theorem head?_dropWhile_not {α : Type} (p : α → Bool) :
    ∀ (m : List α) (c : α), (m.dropWhile p).head? = some c → p c = false
  | [], c => by simp
  | x :: m', c => by
    intro h
    cases hp : p x with
    | false =>
      rw [List.dropWhile_cons, hp] at h
      simp only [Bool.false_eq_true, if_false, List.head?_cons, Option.some.injEq] at h
      rw [← h]
      exact hp
    | true =>
      rw [List.dropWhile_cons, hp] at h
      simp only [if_true] at h
      exact head?_dropWhile_not p m' c h

/-- A stripped string has no trailing whitespace. -/
theorem pyStrip_noTrailingWs (l : List Char) : noTrailingWs (pyStrip l) := by
  intro c hc
  unfold pyStrip at hc
  rw [List.getLast?_reverse] at hc
  exact head?_dropWhile_not isPySpace _ c hc

/-- A non-empty lookbehind accumulator. -/
theorem headIsSentPunct_ne_nil {acc : List Char} (h : headIsSentPunct acc = true) :
    acc ≠ [] := by
  cases acc with
  | nil => simp [headIsSentPunct] at h
  | cons a t => exact List.cons_ne_nil a t

/-- The sentence splitter never produces an empty piece when the input is
non-empty with no trailing whitespace (invariants: an in-separator state
has an empty accumulator; at end of input the scan is mid-piece). -/
theorem splitSentencesAux_ne_nil :
    ∀ (l acc : List Char) (inSep : Bool),
      (inSep = true → acc = []) →
      (l = [] → inSep = false ∧ acc ≠ []) →
      noTrailingWs l →
      ∀ x ∈ splitSentencesAux l acc inSep, x ≠ []
  | [], acc, inSep => by
    intro _ hemp _ x hx
    simp only [splitSentencesAux] at hx
    rcases List.mem_singleton.mp hx with rfl
    obtain ⟨_, hacc⟩ := hemp rfl
    simpa using hacc
  | c :: rest, acc, inSep => by
    intro hia hemp hnt x hx
    have hrest_nt : noTrailingWs rest := by
      intro d hd
      have hcd : (c :: rest).getLast? = some d := by
        cases rest with
        | nil => simp at hd
        | cons r rs => rw [List.getLast?_cons_cons]; exact hd
      exact hnt d hcd
    have hlast_c : rest = [] → isPySpace c = false := by
      intro hr
      subst hr
      exact hnt c (by simp)
    simp only [splitSentencesAux] at hx
    by_cases h1 : inSep && isPySpace c
    · rw [if_pos h1] at hx
      have hcws : isPySpace c = true := by
        have h1' := h1
        simp only [Bool.and_eq_true] at h1'
        exact h1'.2
      have hrne : rest ≠ [] := by
        intro hr
        rw [hlast_c hr] at hcws
        cases hcws
      exact splitSentencesAux_ne_nil rest acc inSep hia
        (fun h => absurd h hrne) hrest_nt x hx
    · rw [if_neg h1] at hx
      by_cases h2 : !inSep && isPySpace c && headIsSentPunct acc
      · rw [if_pos h2] at hx
        have h2' := h2
        simp only [Bool.and_eq_true] at h2'
        have hcws : isPySpace c = true := h2'.1.2
        have haccne : acc ≠ [] := headIsSentPunct_ne_nil h2'.2
        have hrne : rest ≠ [] := by
          intro hr
          rw [hlast_c hr] at hcws
          cases hcws
        rcases List.mem_cons.mp hx with rfl | htail
        · simpa using haccne
        · exact splitSentencesAux_ne_nil rest [] true (fun _ => rfl)
            (fun h => absurd h hrne) hrest_nt x htail
      · rw [if_neg h2] at hx
        exact splitSentencesAux_ne_nil rest (c :: acc) false
          (fun h => Bool.noConfusion h)
          (fun _ => ⟨rfl, List.cons_ne_nil c acc⟩) hrest_nt x hx

/-- Sentence pieces of a non-empty stripped paragraph are non-empty. -/
theorem splitSentences_ne_nil {p : List Char} (hne : p ≠ [])
    (hnt : noTrailingWs p) : ∀ x ∈ splitSentences p, x ≠ [] :=
  splitSentencesAux_ne_nil p [] false (fun h => Bool.noConfusion h)
    (fun h => absurd h hne) hnt

/-- Flushing preserves the non-emptiness invariant. -/
theorem flushWith_NEInv {st : SplitSt} (sep : List Char) (h : NEInv st) :
    NEInv (flushWith sep st) := by
  obtain ⟨h1, h2⟩ := h
  unfold flushWith
  split
  · exact ⟨h1, h2⟩
  · next hemp =>
    have hcur : st.cur ≠ [] := by
      intro hc
      exact hemp (by rw [hc]; rfl)
    refine ⟨by simp, ?_⟩
    intro pc hpc
    rcases List.mem_append.mp hpc with hin | hnew
    · exact h2 pc hin
    · rcases List.mem_singleton.mp hnew with rfl
      exact ⟨hcur, h1⟩

/-- A sentence step preserves non-emptiness when the sentence is
non-empty. -/
theorem stepSentence_NEInv {M : Nat} {st : SplitSt} {s : List Char}
    (hs : s ≠ []) (h : NEInv st) : NEInv (stepSentence M st s) := by
  unfold stepSentence
  by_cases hc : M < st.tokens + estimate_tokens s
  · simp only [if_pos hc]
    obtain ⟨h1, h2⟩ := flushWith_NEInv spSep h
    refine ⟨?_, h2⟩
    intro p hp
    rcases List.mem_append.mp hp with hin | hone
    · exact h1 p hin
    · rcases List.mem_singleton.mp hone with rfl
      exact hs
  · simp only [if_neg hc]
    obtain ⟨h1, h2⟩ := h
    refine ⟨?_, h2⟩
    intro p hp
    rcases List.mem_append.mp hp with hin | hone
    · exact h1 p hin
    · rcases List.mem_singleton.mp hone with rfl
      exact hs

/-- The sentence loop preserves non-emptiness. -/
theorem foldl_stepSentence_NEInv {M : Nat} :
    ∀ (ss : List (List Char)) (st : SplitSt), (∀ s ∈ ss, s ≠ []) → NEInv st →
      NEInv (ss.foldl (stepSentence M) st)
  | [], _, _, h => h
  | s :: ss, st, hss, h =>
    foldl_stepSentence_NEInv ss (stepSentence M st s)
      (fun x hx => hss x (List.mem_cons_of_mem s hx))
      (stepSentence_NEInv (hss s (List.mem_cons_self s ss)) h)

/-- A paragraph step preserves non-emptiness. -/
theorem stepPara_NEInv {M : Nat} {st : SplitSt} (p : List Char) (h : NEInv st) :
    NEInv (stepPara M st p) := by
  unfold stepPara
  by_cases he : (pyStrip p).isEmpty
  · simpa [he] using h
  · have hne : pyStrip p ≠ [] := by
      intro hc
      exact absurd (by rw [hc]; rfl) he
    simp only [if_neg he]
    by_cases hbig : M < estimate_tokens (pyStrip p)
    · simp only [if_pos hbig]
      exact foldl_stepSentence_NEInv _ _
        (splitSentences_ne_nil hne (pyStrip_noTrailingWs p)) (flushWith_NEInv nnSep h)
    · simp only [if_neg hbig]
      by_cases hover : M < st.tokens + estimate_tokens (pyStrip p)
      · simp only [if_pos hover]
        obtain ⟨_, h2⟩ := flushWith_NEInv nnSep h
        refine ⟨?_, h2⟩
        intro q hq
        rcases List.mem_singleton.mp hq with rfl
        exact hne
      · simp only [if_neg hover]
        obtain ⟨h1, h2⟩ := h
        refine ⟨?_, h2⟩
        intro q hq
        rcases List.mem_append.mp hq with hin | hone
        · exact h1 q hin
        · rcases List.mem_singleton.mp hone with rfl
          exact hne

/-- The paragraph loop preserves non-emptiness. -/
theorem foldl_stepPara_NEInv {M : Nat} :
    ∀ (ps : List (List Char)) (st : SplitSt), NEInv st →
      NEInv (ps.foldl (stepPara M) st)
  | [], _, h => h
  | p :: ps, st, h => foldl_stepPara_NEInv ps (stepPara M st p) (stepPara_NEInv p h)

/-- Joining `[a]` is `a`. -/
theorem intercalate_single (sep : List Char) (x : List Char) :
    List.intercalate sep [x] = x := by
  simp [List.intercalate]

/-- Joining a two-or-more list starts with the first piece and the
separator. -/
theorem intercalate_cons₂ (sep x y : List Char) (t : List (List Char)) :
    List.intercalate sep (x :: y :: t) = x ++ sep ++ List.intercalate sep (y :: t) := by
  simp [List.intercalate, List.intersperse_cons_cons]

/-- A join of non-empty pieces (at least one piece) is non-empty. -/
theorem intercalate_ne_nil (sep : List Char) :
    ∀ (ps : List (List Char)), ps ≠ [] → (∀ p ∈ ps, p ≠ []) →
      List.intercalate sep ps ≠ []
  | [], h, _ => absurd rfl h
  | [x], _, hp => by
    rw [intercalate_single]
    exact hp x (List.mem_singleton.mpr rfl)
  | x :: y :: t, _, hp => by
    rw [intercalate_cons₂]
    intro hcon
    have hx : x = [] := by
      rcases List.append_eq_nil.mp hcon with ⟨h1, _⟩
      exact (List.append_eq_nil.mp h1).1
    exact hp x (List.mem_cons_self _ _) hx

/-- C10: every chunk emitted by `split_into_chunks` has non-empty
content, for every input and parameters. -/
theorem c10_chunks_nonempty (text : List Char) (M ov : Nat) :
    ∀ c ∈ split_into_chunks text M ov, c.content ≠ [] := by
  intro c hc
  rcases List.mem_map.mp hc with ⟨pc, hpc, rfl⟩
  have hinit : NEInv ⟨[], [], 0, 0⟩ := ⟨by simp, by intro pc h; cases h⟩
  have hfold := foldl_stepPara_NEInv (M := M) (splitParas text) _ hinit
  have hfin := flushWith_NEInv nnSep hfold
  obtain ⟨hne, hall⟩ := hfin.2 pc hpc
  exact intercalate_ne_nil pc.sep pc.pieces hne hall

/-- Witness for C10 on a concrete split. -/
theorem c10_chunks_nonempty_witness :
    (Chunk.mk "chunk_0" "ab".toList 0).content ≠ [] := by
  have h := c10_chunks_nonempty "ab".toList 1 100
  exact h ⟨"chunk_0", "ab".toList, 0⟩ (by decide)


/-- Unfolding equation: word scan at end of input. -/
theorem wordsOfAux_nil (acc : List Char) :
    wordsOfAux [] acc = if acc.isEmpty then [] else [acc.reverse] := rfl

/-- Unfolding equation: word scan at a whitespace character. -/
theorem wordsOfAux_cons_ws {c : Char} (hc : isPySpace c = true)
    (rest acc : List Char) :
    wordsOfAux (c :: rest) acc
      = (if acc.isEmpty then [] else [acc.reverse]) ++ wordsOfAux rest [] := by
  cases hacc : acc.isEmpty <;> simp [wordsOfAux, hc, hacc]

/-- Unfolding equation: word scan at a non-whitespace character. -/
theorem wordsOfAux_cons_nonws {c : Char} (hc : isPySpace c = false)
    (rest acc : List Char) :
    wordsOfAux (c :: rest) acc = wordsOfAux rest (c :: acc) := by
  simp [wordsOfAux, hc]

/-- Words of a list starting with a whitespace character. -/
theorem wordsOf_cons_ws {c : Char} (hc : isPySpace c = true) (rest : List Char) :
    wordsOf (c :: rest) = wordsOf rest := by
  rw [wordsOf, wordsOf, wordsOfAux_cons_ws hc]
  rfl

/-- A single whitespace character inside a string cuts the word scan: the
words before it (continuing the current accumulator) and the words after
it are independent. -/
theorem wordsOfAux_append_ws {w : Char} (hw : isPySpace w = true) :
    ∀ (a b acc : List Char),
      wordsOfAux (a ++ w :: b) acc = wordsOfAux a acc ++ wordsOf b
  | [], b, acc => by
    rw [List.nil_append, wordsOfAux_cons_ws hw, wordsOfAux_nil]
    rfl
  | c :: a', b, acc => by
    cases hc : isPySpace c
    · rw [List.cons_append, wordsOfAux_cons_nonws hc, wordsOfAux_append_ws hw a' b,
        wordsOfAux_cons_nonws hc]
    · rw [List.cons_append, wordsOfAux_cons_ws hc, wordsOfAux_append_ws hw a' b,
        wordsOfAux_cons_ws hc, List.append_assoc]

/-- A whitespace prefix does not contribute words. -/
theorem wordsOfAux_ws_leading :
    ∀ (s : List Char), allWs s → ∀ b : List Char, wordsOfAux (s ++ b) [] = wordsOfAux b []
  | [], _, b => rfl
  | c :: s', hs, b => by
    have hc : isPySpace c = true := hs c (List.mem_cons_self _ _)
    rw [List.cons_append, wordsOfAux_cons_ws hc]
    rw [wordsOfAux_ws_leading s' (fun x hx => hs x (List.mem_cons_of_mem _ hx)) b]
    rfl

/-- A whitespace-only string has no words. -/
theorem wordsOf_allWs {s : List Char} (hs : allWs s) : wordsOf s = [] := by
  have h := wordsOfAux_ws_leading s hs []
  rw [List.append_nil] at h
  exact h

/-- A whitespace suffix does not contribute words. -/
theorem wordsOf_ws_suffix (a : List Char) {s : List Char} (hs : allWs s) :
    wordsOf (a ++ s) = wordsOf a := by
  cases s with
  | nil => rw [List.append_nil]
  | cons w s' =>
    have hw : isPySpace w = true := hs w (List.mem_cons_self _ _)
    show wordsOfAux (a ++ w :: s') [] = wordsOf a
    rw [wordsOfAux_append_ws hw a s' []]
    rw [wordsOf_allWs (fun x hx => hs x (List.mem_cons_of_mem _ hx))]
    rw [List.append_nil]
    rfl

/-- A non-empty whitespace separator splits the word scan. -/
theorem wordsOf_sep {sep : List Char} (hsep : allWs sep) (hne : sep ≠ [])
    (a b : List Char) : wordsOf (a ++ sep ++ b) = wordsOf a ++ wordsOf b := by
  cases sep with
  | nil => exact absurd rfl hne
  | cons w s' =>
    have hw : isPySpace w = true := hsep w (List.mem_cons_self _ _)
    have hs' : allWs s' := fun x hx => hsep x (List.mem_cons_of_mem _ hx)
    have hshape : a ++ (w :: s') ++ b = a ++ w :: (s' ++ b) := by simp
    rw [hshape]
    show wordsOfAux (a ++ w :: (s' ++ b)) [] = wordsOf a ++ wordsOf b
    rw [wordsOfAux_append_ws hw a (s' ++ b) []]
    have hx : wordsOf (s' ++ b) = wordsOf b := by
      show wordsOfAux (s' ++ b) [] = wordsOf b
      rw [wordsOfAux_ws_leading s' hs' b]
      rfl
    rw [hx]
    rfl

/-- Stripping does not change the words. -/
theorem wordsOf_pyStrip (l : List Char) : wordsOf (pyStrip l) = wordsOf l := by
  have hA : wordsOf (trimLeftPy l) = wordsOf l := by
    have hws : allWs (l.takeWhile isPySpace) := fun x hx => List.mem_takeWhile_imp hx
    have h1 : wordsOfAux (l.takeWhile isPySpace ++ l.dropWhile isPySpace) []
        = wordsOfAux (l.dropWhile isPySpace) [] :=
      wordsOfAux_ws_leading _ hws _
    rw [List.takeWhile_append_dropWhile] at h1
    exact h1.symm
  have hdec2 : trimLeftPy l
      = pyStrip l ++ ((trimLeftPy l).reverse.takeWhile isPySpace).reverse := by
    have h1 : (trimLeftPy l).reverse.takeWhile isPySpace
        ++ (trimLeftPy l).reverse.dropWhile isPySpace = (trimLeftPy l).reverse :=
      List.takeWhile_append_dropWhile isPySpace (trimLeftPy l).reverse
    calc trimLeftPy l
        = (trimLeftPy l).reverse.reverse := by rw [List.reverse_reverse]
      _ = ((trimLeftPy l).reverse.takeWhile isPySpace
            ++ (trimLeftPy l).reverse.dropWhile isPySpace).reverse := by rw [h1]
      _ = pyStrip l ++ ((trimLeftPy l).reverse.takeWhile isPySpace).reverse := by
          rw [List.reverse_append]
          rfl
  have hws2 : allWs ((trimLeftPy l).reverse.takeWhile isPySpace).reverse := by
    intro x hx
    exact List.mem_takeWhile_imp (List.mem_reverse.mp hx)
  calc wordsOf (pyStrip l)
      = wordsOf (pyStrip l ++ ((trimLeftPy l).reverse.takeWhile isPySpace).reverse) :=
        (wordsOf_ws_suffix _ hws2).symm
    _ = wordsOf (trimLeftPy l) := by rw [← hdec2]
    _ = wordsOf l := hA

/-- Newline runs are whitespace. -/
theorem allWs_replicate_newline (n : Nat) : allWs (List.replicate n '\n') := by
  intro c hc
  rw [List.eq_of_mem_replicate hc]
  decide

/-- Unfolding equation: paragraph scan at end of input. -/
theorem splitParasAux_nil (pend : Nat) (acc : List Char) :
    splitParasAux [] pend acc
      = if 2 ≤ pend then [acc.reverse, []]
        else if pend = 1 then [acc.reverse ++ ['\n']] else [acc.reverse] := rfl

/-- Unfolding equation: paragraph scan at a newline. -/
theorem splitParasAux_cons_nl (rest : List Char) (pend : Nat) (acc : List Char) :
    splitParasAux ('\n' :: rest) pend acc = splitParasAux rest (pend + 1) acc := by
  simp [splitParasAux]

/-- Unfolding equation: paragraph scan at a non-newline after a
separator run. -/
theorem splitParasAux_cons_sep {c : Char} (hc : ¬ c = '\n') {pend : Nat}
    (h2 : 2 ≤ pend) (rest acc : List Char) :
    splitParasAux (c :: rest) pend acc = acc.reverse :: splitParasAux rest 0 [c] := by
  simp [splitParasAux, hc, h2]

/-- Unfolding equation: paragraph scan at a non-newline after one pending
newline. -/
theorem splitParasAux_cons_one {c : Char} (hc : ¬ c = '\n') (rest acc : List Char) :
    splitParasAux (c :: rest) 1 acc = splitParasAux rest 0 (c :: '\n' :: acc) := by
  simp [splitParasAux, hc]

/-- Unfolding equation: paragraph scan at a non-newline with no pending
newline. -/
theorem splitParasAux_cons_zero {c : Char} (hc : ¬ c = '\n') (rest acc : List Char) :
    splitParasAux (c :: rest) 0 acc = splitParasAux rest 0 (c :: acc) := by
  simp [splitParasAux, hc]

/-- The words of a text are the concatenated words of its paragraph-split
pieces: the separators consumed by the split are whitespace runs. -/
theorem splitParasAux_words :
    ∀ (l : List Char) (pend : Nat) (acc : List Char),
      ((splitParasAux l pend acc).map wordsOf).flatten
        = wordsOf (acc.reverse ++ List.replicate pend '\n' ++ l)
  | [], pend, acc => by
    rw [splitParasAux_nil]
    by_cases h2 : 2 ≤ pend
    · rw [if_pos h2]
      have hlist : acc.reverse ++ List.replicate pend '\n' ++ ([] : List Char)
          = acc.reverse ++ List.replicate pend '\n' := by simp
      rw [hlist, wordsOf_ws_suffix acc.reverse (allWs_replicate_newline pend)]
      show wordsOf acc.reverse ++ (wordsOf [] ++ []) = wordsOf acc.reverse
      simp [wordsOf, wordsOfAux]
    · rw [if_neg h2]
      by_cases h1 : pend = 1
      · subst h1
        rw [if_pos rfl]
        show wordsOf (acc.reverse ++ ['\n']) ++ []
          = wordsOf (acc.reverse ++ List.replicate 1 '\n' ++ [])
        simp
      · rw [if_neg h1]
        have h0 : pend = 0 := by omega
        subst h0
        show wordsOf acc.reverse ++ [] = wordsOf (acc.reverse ++ List.replicate 0 '\n' ++ [])
        simp
  | c :: rest, pend, acc => by
    by_cases hc : c = '\n'
    · subst hc
      rw [splitParasAux_cons_nl, splitParasAux_words rest (pend + 1) acc]
      congr 1
      rw [List.replicate_succ']
      simp
    · by_cases h2 : 2 ≤ pend
      · rw [splitParasAux_cons_sep hc h2]
        show wordsOf acc.reverse ++ ((splitParasAux rest 0 [c]).map wordsOf).flatten
          = wordsOf (acc.reverse ++ List.replicate pend '\n' ++ (c :: rest))
        rw [splitParasAux_words rest 0 [c]]
        rw [wordsOf_sep (allWs_replicate_newline pend)
          (by intro hrep
              have := congrArg List.length hrep
              simp at this
              omega) acc.reverse (c :: rest)]
        congr 2
      · by_cases h1 : pend = 1
        · subst h1
          rw [splitParasAux_cons_one hc, splitParasAux_words rest 0 (c :: '\n' :: acc)]
          congr 1
          simp
        · have h0 : pend = 0 := by omega
          subst h0
          rw [splitParasAux_cons_zero hc, splitParasAux_words rest 0 (c :: acc)]
          congr 1
          simp

/-- Unfolding equation: sentence scan at end of input. -/
theorem splitSentencesAux_nil (acc : List Char) (inSep : Bool) :
    splitSentencesAux [] acc inSep = [acc.reverse] := rfl

/-- Unfolding equation: sentence scan skipping separator whitespace. -/
theorem splitSentencesAux_cons_skip {inSep : Bool} {c : Char} (h : inSep = true)
    (hc : isPySpace c = true) (rest acc : List Char) :
    splitSentencesAux (c :: rest) acc inSep = splitSentencesAux rest acc inSep := by
  subst h
  simp [splitSentencesAux, hc]

/-- Unfolding equation: sentence scan at a separator start (whitespace
after sentence punctuation). -/
theorem splitSentencesAux_cons_emit {c : Char} {acc : List Char}
    (hc : isPySpace c = true) (hp : headIsSentPunct acc = true) (rest : List Char) :
    splitSentencesAux (c :: rest) acc false
      = acc.reverse :: splitSentencesAux rest [] true := by
  simp [splitSentencesAux, hc, hp]

/-- Unfolding equation: sentence scan accumulating an ordinary character. -/
theorem splitSentencesAux_cons_take {inSep : Bool} {c : Char} {acc : List Char}
    (h : (inSep && isPySpace c) = false)
    (h2 : (!inSep && isPySpace c && headIsSentPunct acc) = false) (rest : List Char) :
    splitSentencesAux (c :: rest) acc inSep = splitSentencesAux rest (c :: acc) false := by
  simp [splitSentencesAux, h, h2]

/-- The words of a paragraph are the concatenated words of its sentences:
the sentence separators consumed by the split are whitespace runs. -/
theorem splitSentencesAux_words :
    ∀ (l acc : List Char) (inSep : Bool), (inSep = true → acc = []) →
      ((splitSentencesAux l acc inSep).map wordsOf).flatten
        = wordsOf (acc.reverse ++ l)
  | [], acc, inSep => by
    intro _
    rw [splitSentencesAux_nil]
    show wordsOf acc.reverse ++ [] = wordsOf (acc.reverse ++ [])
    simp
  | c :: rest, acc, inSep => by
    intro hia
    cases inSep with
    | true =>
      have hacc : acc = [] := hia rfl
      subst hacc
      cases hc : isPySpace c with
      | true =>
        rw [splitSentencesAux_cons_skip rfl hc]
        rw [splitSentencesAux_words rest [] true (fun _ => rfl)]
        rw [List.reverse_nil, List.nil_append, List.nil_append, wordsOf_cons_ws hc]
      | false =>
        rw [splitSentencesAux_cons_take (by simp [hc]) (by simp [hc])]
        rw [splitSentencesAux_words rest [c] false (fun h => Bool.noConfusion h)]
        congr 1
    | false =>
      by_cases hcp : isPySpace c = true ∧ headIsSentPunct acc = true
      · rw [splitSentencesAux_cons_emit hcp.1 hcp.2]
        simp only [List.map_cons, List.flatten_cons]
        rw [splitSentencesAux_words rest [] true (fun _ => rfl)]
        rw [List.reverse_nil, List.nil_append]
        show wordsOf acc.reverse ++ wordsOf rest = wordsOfAux (acc.reverse ++ c :: rest) []
        rw [wordsOfAux_append_ws hcp.1 acc.reverse rest []]
        rfl
      · have hfalse : (!false && isPySpace c && headIsSentPunct acc) = false := by
          cases hc : isPySpace c
          · simp [hc]
          · cases hp : headIsSentPunct acc
            · simp [hc, hp]
            · exact absurd ⟨hc, hp⟩ hcp
        rw [splitSentencesAux_cons_take (by simp) hfalse]
        rw [splitSentencesAux_words rest (c :: acc) false (fun h => Bool.noConfusion h)]
        congr 1
        simp

/-- The two joiners are whitespace. -/
theorem allWs_nnSep : allWs nnSep := by
  unfold allWs
  decide

/-- The sentence joiner is whitespace. -/
theorem allWs_spSep : allWs spSep := by
  unfold allWs
  decide

/-- Words of a join through a non-empty whitespace separator are the
concatenated words of the pieces. -/
theorem wordsOf_intercalate {sep : List Char} (hsep : allWs sep) (hne : sep ≠ []) :
    ∀ ls : List (List Char),
      wordsOf (List.intercalate sep ls) = (ls.map wordsOf).flatten
  | [] => by simp [List.intercalate, wordsOf, wordsOfAux]
  | [x] => by simp [intercalate_single]
  | x :: y :: t => by
    rw [intercalate_cons₂, wordsOf_sep hsep hne x (List.intercalate sep (y :: t))]
    rw [wordsOf_intercalate hsep hne (y :: t)]
    simp

/-- After any flush the accumulation is empty. -/
theorem flushWith_cur_nil (sep : List Char) (st : SplitSt) :
    (flushWith sep st).cur = [] := by
  unfold flushWith
  split
  · next hemp => exact List.isEmpty_iff.mp hemp
  · rfl

/-- Flushing moves the accumulation into the chunk-piece stream. -/
theorem flushWith_chunkPieces (sep : List Char) (st : SplitSt) :
    chunkPieces (flushWith sep st) ++ (flushWith sep st).cur
      = chunkPieces st ++ st.cur := by
  unfold flushWith chunkPieces
  split
  · rfl
  · simp

/-- A sentence step appends the sentence to the piece stream. -/
theorem stepSentence_chunkPieces (M : Nat) (st : SplitSt) (s : List Char) :
    chunkPieces (stepSentence M st s) ++ (stepSentence M st s).cur
      = chunkPieces st ++ st.cur ++ [s] := by
  unfold stepSentence
  by_cases hc : M < st.tokens + estimate_tokens s
  · simp only [if_pos hc]
    have h := flushWith_chunkPieces spSep st
    show chunkPieces (flushWith spSep st) ++ ((flushWith spSep st).cur ++ [s])
      = chunkPieces st ++ st.cur ++ [s]
    rw [← List.append_assoc, h]
  · simp only [if_neg hc]
    show chunkPieces st ++ (st.cur ++ [s]) = chunkPieces st ++ st.cur ++ [s]
    rw [← List.append_assoc]

/-- The sentence loop appends the sentences to the piece stream. -/
theorem foldl_stepSentence_chunkPieces (M : Nat) :
    ∀ (ss : List (List Char)) (st : SplitSt),
      chunkPieces (ss.foldl (stepSentence M) st) ++ (ss.foldl (stepSentence M) st).cur
        = chunkPieces st ++ st.cur ++ ss
  | [], st => by simp
  | s :: ss, st => by
    rw [List.foldl_cons, foldl_stepSentence_chunkPieces M ss (stepSentence M st s)]
    rw [stepSentence_chunkPieces M st s]
    simp

/-- A paragraph step appends the paragraph's pieces to the piece stream. -/
theorem stepPara_chunkPieces (M : Nat) (st : SplitSt) (p : List Char) :
    chunkPieces (stepPara M st p) ++ (stepPara M st p).cur
      = chunkPieces st ++ st.cur ++ paraPieces M p := by
  unfold stepPara paraPieces
  by_cases he : (pyStrip p).isEmpty
  · simp only [if_pos he]
    simp
  · simp only [if_neg he]
    by_cases hbig : M < estimate_tokens (pyStrip p)
    · simp only [if_pos hbig]
      rw [foldl_stepSentence_chunkPieces M _ (flushWith nnSep st)]
      rw [flushWith_cur_nil, List.append_nil]
      have h := flushWith_chunkPieces nnSep st
      rw [flushWith_cur_nil, List.append_nil] at h
      rw [h]
    · simp only [if_neg hbig]
      by_cases hover : M < st.tokens + estimate_tokens (pyStrip p)
      · simp only [if_pos hover]
        show chunkPieces (flushWith nnSep st) ++ [pyStrip p]
          = chunkPieces st ++ st.cur ++ [pyStrip p]
        have h := flushWith_chunkPieces nnSep st
        rw [flushWith_cur_nil, List.append_nil] at h
        rw [h]
      · simp only [if_neg hover]
        show chunkPieces st ++ (st.cur ++ [pyStrip p])
          = chunkPieces st ++ st.cur ++ [pyStrip p]
        rw [← List.append_assoc]

/-- The paragraph loop appends all paragraphs' pieces to the piece
stream. -/
theorem foldl_stepPara_chunkPieces (M : Nat) :
    ∀ (ps : List (List Char)) (st : SplitSt),
      chunkPieces (ps.foldl (stepPara M) st) ++ (ps.foldl (stepPara M) st).cur
        = chunkPieces st ++ st.cur ++ (ps.map (paraPieces M)).flatten
  | [], st => by simp
  | p :: ps, st => by
    rw [List.foldl_cons, foldl_stepPara_chunkPieces M ps (stepPara M st p)]
    rw [stepPara_chunkPieces M st p]
    simp

/-- The pieces of the emitted chunks are exactly the atomic pieces of the
text, in order. -/
theorem split_into_chunksP_pieces (text : List Char) (M : Nat) :
    ((split_into_chunksP text M).map PChunk.pieces).flatten = allPieces text M := by
  have h := flushWith_chunkPieces nnSep ((splitParas text).foldl (stepPara M) ⟨[], [], 0, 0⟩)
  rw [flushWith_cur_nil, List.append_nil] at h
  have h2 := foldl_stepPara_chunkPieces M (splitParas text) ⟨[], [], 0, 0⟩
  rw [show chunkPieces ⟨[], [], 0, 0⟩ = [] from rfl] at h2
  simp only [List.nil_append] at h2
  show chunkPieces (flushWith nnSep ((splitParas text).foldl (stepPara M) ⟨[], [], 0, 0⟩))
    = allPieces text M
  rw [h, h2]
  rfl

/-- Flushing preserves the joiner invariant when flushing with one of the
two source joiners. -/
theorem flushWith_SepInv {st : SplitSt} {sep : List Char}
    (hsep : sep = nnSep ∨ sep = spSep) (h : SepInv st) : SepInv (flushWith sep st) := by
  intro pc hpc
  rcases flushWith_chunks sep pc hpc with hin | ⟨_, hs⟩
  · exact h pc hin
  · rw [hs]
    exact hsep

/-- A sentence step preserves the joiner invariant. -/
theorem stepSentence_SepInv {M : Nat} {st : SplitSt} (s : List Char)
    (h : SepInv st) : SepInv (stepSentence M st s) := by
  unfold stepSentence
  by_cases hc : M < st.tokens + estimate_tokens s
  · simp only [if_pos hc]
    intro pc hpc
    exact flushWith_SepInv (Or.inr rfl) h pc hpc
  · simp only [if_neg hc]
    intro pc hpc
    exact h pc hpc

/-- The sentence loop preserves the joiner invariant. -/
theorem foldl_stepSentence_SepInv {M : Nat} :
    ∀ (ss : List (List Char)) (st : SplitSt), SepInv st →
      SepInv (ss.foldl (stepSentence M) st)
  | [], _, h => h
  | s :: ss, st, h =>
    foldl_stepSentence_SepInv ss (stepSentence M st s) (stepSentence_SepInv s h)

/-- A paragraph step preserves the joiner invariant. -/
theorem stepPara_SepInv {M : Nat} {st : SplitSt} (p : List Char)
    (h : SepInv st) : SepInv (stepPara M st p) := by
  unfold stepPara
  by_cases he : (pyStrip p).isEmpty
  · simpa [he] using h
  · simp only [if_neg he]
    by_cases hbig : M < estimate_tokens (pyStrip p)
    · simp only [if_pos hbig]
      exact foldl_stepSentence_SepInv _ _ (flushWith_SepInv (Or.inl rfl) h)
    · simp only [if_neg hbig]
      by_cases hover : M < st.tokens + estimate_tokens (pyStrip p)
      · simp only [if_pos hover]
        intro pc hpc
        exact flushWith_SepInv (Or.inl rfl) h pc hpc
      · simp only [if_neg hover]
        intro pc hpc
        exact h pc hpc

/-- The paragraph loop preserves the joiner invariant. -/
theorem foldl_stepPara_SepInv {M : Nat} :
    ∀ (ps : List (List Char)) (st : SplitSt), SepInv st →
      SepInv (ps.foldl (stepPara M) st)
  | [], _, h => h
  | p :: ps, st, h => foldl_stepPara_SepInv ps (stepPara M st p) (stepPara_SepInv p h)

/-- Every emitted chunk uses one of the two source joiners. -/
theorem split_into_chunksP_SepInv (text : List Char) (M : Nat) :
    ∀ pc ∈ split_into_chunksP text M, pc.sep = nnSep ∨ pc.sep = spSep := by
  intro pc hpc
  have hinit : SepInv ⟨[], [], 0, 0⟩ := by intro pc h; cases h
  have hfold := foldl_stepPara_SepInv (M := M) (splitParas text) _ hinit
  exact flushWith_SepInv (Or.inl rfl) hfold pc hpc

/-- Flattening commutes with mapping the word scan over nested pieces. -/
theorem flatten_map_wordsOf_flatten :
    ∀ ls : List (List (List Char)),
      ((ls.flatten).map wordsOf).flatten
        = (ls.map (fun ps => (ps.map wordsOf).flatten)).flatten
  | [] => rfl
  | ps :: ls => by
    simp only [List.flatten_cons, List.map_append, List.flatten_append, List.map_cons]
    rw [flatten_map_wordsOf_flatten ls]

/-- The words of one paragraph's pieces are the paragraph's words. -/
theorem wordsOf_paraPieces (M : Nat) (p : List Char) :
    ((paraPieces M p).map wordsOf).flatten = wordsOf p := by
  unfold paraPieces
  by_cases he : (pyStrip p).isEmpty
  · simp only [if_pos he, List.map_nil, List.flatten_nil]
    have hnil : pyStrip p = [] := List.isEmpty_iff.mp he
    have h2 := wordsOf_pyStrip p
    rw [hnil] at h2
    exact h2
  · simp only [if_neg he]
    by_cases hbig : M < estimate_tokens (pyStrip p)
    · simp only [if_pos hbig]
      have h := splitSentencesAux_words (pyStrip p) [] false (fun h => Bool.noConfusion h)
      rw [List.reverse_nil, List.nil_append] at h
      rw [show splitSentences (pyStrip p) = splitSentencesAux (pyStrip p) [] false from rfl]
      rw [h, wordsOf_pyStrip]
    · simp only [if_neg hbig]
      show wordsOf (pyStrip p) ++ [] = wordsOf p
      rw [List.append_nil, wordsOf_pyStrip]

/-- The words of the atomic pieces of a text are its words. -/
theorem wordsOf_allPieces (text : List Char) (M : Nat) :
    ((allPieces text M).map wordsOf).flatten = wordsOf text := by
  unfold allPieces
  rw [flatten_map_wordsOf_flatten, List.map_map]
  have hcongr : ((splitParas text).map
      ((fun ps => (ps.map wordsOf).flatten) ∘ paraPieces M))
      = (splitParas text).map wordsOf := by
    apply List.map_congr_left
    intro p _
    exact wordsOf_paraPieces M p
  rw [hcongr]
  have h := splitParasAux_words text 0 []
  rw [List.reverse_nil, List.nil_append, List.replicate_zero, List.nil_append] at h
  exact h

/-- Words of one joined chunk are the words of its pieces. -/
theorem wordsOf_chunk_content {pc : PChunk} (hsep : pc.sep = nnSep ∨ pc.sep = spSep) :
    wordsOf (joinPChunk pc).content = (pc.pieces.map wordsOf).flatten := by
  show wordsOf (List.intercalate pc.sep pc.pieces) = _
  rcases hsep with h | h
  · rw [h]
    exact wordsOf_intercalate allWs_nnSep (by decide) pc.pieces
  · rw [h]
    exact wordsOf_intercalate allWs_spSep (by decide) pc.pieces

/-- Counterexample to C8 as stated: for `"abcde. fghij"` with cap 2 the
single emitted chunk has content `"abcde.\n\nfghij"` — the sentence
separator `" "` was replaced by the flush joiner `"\n\n"` — and the two
differ even after blank-line normalization of both sides (both texts are
fixed points of it). -/
theorem c8_counterexample :
    (split_into_chunks "abcde. fghij".toList 2 100).map Chunk.content
      = ["abcde.\n\nfghij".toList] ∧
    normBlankLines "abcde.\n\nfghij".toList = "abcde.\n\nfghij".toList ∧
    normBlankLines "abcde. fghij".toList = "abcde. fghij".toList ∧
    "abcde.\n\nfghij".toList ≠ "abcde. fghij".toList := by
  decide

/-- C8 (amended): joining all chunk contents in index order reproduces the
source text up to WHITESPACE normalization — the word sequence is exactly
preserved — rather than up to blank-line normalization only: the split
also collapses whitespace runs after sentence punctuation inside oversized
paragraphs, strips paragraph edges, and may rejoin sentences with either
`" "` or `"\n\n"`. -/
theorem c8_concat_whitespace (text : List Char) (M ov : Nat) :
    normWS (List.intercalate nnSep ((split_into_chunks text M ov).map Chunk.content))
      = normWS text := by
  unfold normWS
  congr 1
  rw [wordsOf_intercalate allWs_nnSep (by decide)]
  rw [show (split_into_chunks text M ov).map Chunk.content
    = (split_into_chunksP text M).map (fun pc => (joinPChunk pc).content) from by
      rw [split_into_chunks, List.map_map]
      rfl]
  rw [List.map_map]
  have hcongr : ((split_into_chunksP text M).map
      ((wordsOf ∘ fun pc => (joinPChunk pc).content)))
      = (split_into_chunksP text M).map (fun pc => (pc.pieces.map wordsOf).flatten) := by
    apply List.map_congr_left
    intro pc hpc
    exact wordsOf_chunk_content (split_into_chunksP_SepInv text M pc hpc)
  rw [hcongr]
  have e1 : (split_into_chunksP text M).map (fun pc => (List.map wordsOf pc.pieces).flatten)
      = ((split_into_chunksP text M).map PChunk.pieces).map
          (fun ps => (List.map wordsOf ps).flatten) := by
    rw [List.map_map]
    rfl
  rw [e1, ← flatten_map_wordsOf_flatten, split_into_chunksP_pieces, wordsOf_allPieces]
